import Mathlib

set_option maxHeartbeats 1000000
set_option linter.unusedSectionVars false

/-! Shallow embedding of the MCTS kernel auto-tuning search
(tinygrad/engine/mcts.py).

Kernels, optimization actions, compiled programs and the components of the
search key are abstract types `K`, `O`, `P`, `A`, `D`, `S`.  The external
collaborators (the action generator `get_kernel_actions`, the compiler
`_try_compile_linearized_w_idx`, the timing harness `_time_program`, the disk
cache, and the float library functions `math.sqrt` / `math.log`) are fields of
an `Env` record.  Timings are rationals; Python's `math.inf` sentinel is `⊤`
in `WithTop ℚ`.  The mutable node graph of the Python code is embedded as an
arena: a list of nodes addressed by index, with `parent` and `children`
stored as indices into the same list.  Calls to the compiler and to the
timing harness are recorded in an event trace so that claims about which
external calls happen can be stated. -/

/-- `MCTSNode.__init__`: kernel, total reward `t`, visit count `n`, parent
index (`none` for the root), children indices (`none` = not yet expanded,
`some []` = expanded and terminal). -/
structure MCTSNode (K : Type) where
  kernel : K
  t : ℚ
  n : ℕ
  parent : Option ℕ
  children : Option (List ℕ)
  deriving DecidableEq

instance {K : Type} [Inhabited K] : Inhabited (MCTSNode K) :=
  ⟨⟨default, 0, 0, none, none⟩⟩

/-- The search key of `mcts_search`:
`{"ast": lin.ast.key, "amt": amt, "device": lin.opts.device, "suffix": lin.opts.suffix}`. -/
structure SearchKey (A D S : Type) where
  ast : A
  amt : ℕ
  device : D
  suffix : S

/-- The external collaborators consumed by the search core, plus the float
library functions it uses.  `timeProgram p b` stands for
`min(_time_program(p, lib, var_vals, rawbufs, early_stop=b))`: the harness is
trusted to return the minimum of its timing samples (spec §6).  `sqrt` and
`log` stand for `math.sqrt` and `math.log`, which are floating-point library
functions external to this file; they are modelled as abstract functions on
rationals. -/
structure Env (K O P A D S : Type) where
  actions : K → List K
  compile : K → Option P
  timeProgram : P → WithTop ℚ → ℚ
  sqrt : ℚ → ℚ
  log : ℕ → ℚ
  ignoreBeamCache : Bool
  cacheLevel : ℕ
  cacheGet : SearchKey A D S → Option (List O)
  appliedOpts : K → List O
  applyOpt : K → O → K
  astKey : K → A
  device : K → D
  suffix : K → S

variable {K O P A D S : Type}

/-- Read the arena at index `i` (default node when out of range). -/
def nodeAt [Inhabited K] (nodes : List (MCTSNode K)) (i : ℕ) : MCTSNode K :=
  (nodes[i]?).getD default

/-- Apply `f` to the element at index `i` of a list, in place. -/
def modifyAt {α : Type} (l : List α) (i : ℕ) (f : α → α) : List α :=
  match l, i with
  | [], _ => []
  | a :: rest, 0 => f a :: rest
  | a :: rest, j + 1 => a :: modifyAt rest j f

/-- The search state: the node arena (index 0 is the root) together with the
best-result accumulator `best, best_tm = lin, math.inf`. -/
structure SearchState (K : Type) where
  nodes : List (MCTSNode K)
  best : K
  bestTm : WithTop ℚ
  deriving DecidableEq

/-- `C = math.sqrt(2)`. -/
def C (env : Env K O P A D S) : ℚ := env.sqrt 2

/-- The UCB1 score of a child, given the parent's visit count `pn`:
`math.inf if child.n == 0 else (child.t/child.n) + C*math.sqrt(math.log(node.n)/child.n)`. -/
def ucbScore (env : Env K O P A D S) (pn : ℕ) (c : MCTSNode K) : WithTop ℚ :=
  if c.n = 0 then ⊤
  else ((c.t / (c.n : ℚ) + C env * env.sqrt (env.log pn / (c.n : ℚ)) : ℚ) : WithTop ℚ)

/-- Keep the first maximum of a scored list: walking left to right, replace
the current best only on a strictly greater score.  This is the head of the
stable descending sort `sorted(ucb, key=lambda x: x[0], reverse=True)[0]`. -/
def selectGo (sc : WithTop ℚ) (a : ℕ) : List (WithTop ℚ × ℕ) → WithTop ℚ × ℕ
  | [] => (sc, a)
  | (sc', a') :: rest => if sc < sc' then selectGo sc' a' rest else selectGo sc a rest

/-- `node = ucb[0][1]`: the first child of maximal UCB1 score. -/
def selectChild [Inhabited K] (env : Env K O P A D S) (nodes : List (MCTSNode K))
    (pn : ℕ) (c : ℕ) (cs : List ℕ) : ℕ :=
  (selectGo (ucbScore env pn (nodeAt nodes c)) c
    (cs.map (fun j => (ucbScore env pn (nodeAt nodes j), j)))).2

/-- The tree-traversal `while` loop, fuelled (the fuel used is the arena size,
which bounds the descent depth since child indices exceed parent indices):
`while node.children is not None: if len(node.children) == 0: break; node = ucb[0][1]`. -/
def descendGo [Inhabited K] (env : Env K O P A D S) (nodes : List (MCTSNode K)) :
    ℕ → ℕ → ℕ
  | 0, i => i
  | f + 1, i =>
    match (nodeAt nodes i).children with
    | none => i
    | some [] => i
    | some (c :: cs) => descendGo env nodes f (selectChild env nodes (nodeAt nodes i).n c cs)

/-- Tree traversal starting from the root (`node = root`). -/
def descend [Inhabited K] (env : Env K O P A D S) (s : SearchState K) : ℕ :=
  descendGo env s.nodes s.nodes.length 0

/-- `expand_node(node)`: create one child per action returned by
`get_kernel_actions(node.kernel, include_0=False).values()`, each parented to
this node.  In the arena the children are appended at the end and the node's
`children` field becomes the list of their indices. -/
def expand_node [Inhabited K] (env : Env K O P A D S) (s : SearchState K) (i : ℕ) :
    SearchState K :=
  let ks := env.actions (nodeAt s.nodes i).kernel
  { s with nodes :=
      modifyAt s.nodes i (fun nd => { nd with children := some (List.range' s.nodes.length ks.length) })
      ++ ks.map (fun k => ⟨k, 0, 0, some i, none⟩) }

/-- `node.parent.children.remove(node)`. -/
def removeChild [Inhabited K] (s : SearchState K) (p i : ℕ) : SearchState K :=
  { s with nodes :=
      modifyAt s.nodes p (fun nd => { nd with children := nd.children.map (fun cs => cs.erase i) }) }

/-- The backpropagation walk, fuelled by the arena size:
`while bnode is not None: bnode.t += -(tm*1e6); bnode.n += 1; bnode = bnode.parent`. -/
def backprop [Inhabited K] (tm : ℚ) : ℕ → ℕ → List (MCTSNode K) → List (MCTSNode K)
  | 0, _, nodes => nodes
  | f + 1, i, nodes =>
    let nodes' := modifyAt nodes i (fun nd => { nd with t := nd.t + -(tm * 1000000), n := nd.n + 1 })
    match (nodeAt nodes i).parent with
    | none => nodes'
    | some p => backprop tm f p nodes'

/-- The ancestor chain of a node (the node itself, then its parent, and so on
up to the root), fuelled by the arena size. -/
def chainOf [Inhabited K] (nodes : List (MCTSNode K)) : ℕ → ℕ → List ℕ
  | 0, _ => []
  | f + 1, i =>
    i :: (match (nodeAt nodes i).parent with
          | none => []
          | some p => chainOf nodes f p)

/-- Trace of calls to the external collaborators during the search. -/
inductive Event (K : Type) where
  | compileCall (k : K)
  | timeCall (tm : ℚ)
  | rolloutDone (i : ℕ)
  deriving DecidableEq

/-- Outcome of one iteration of the driver loop: `stop` is the
`if node.children is not None: break`, `next` covers both `continue` and the
normal end of an iteration body. -/
inductive IterResult (K : Type) where
  | stop (s : SearchState K)
  | next (s : SearchState K)
  deriving DecidableEq

/-- State held by an `IterResult`. -/
def IterResult.state : IterResult K → SearchState K
  | .stop s => s
  | .next s => s

/-- `best_tm * 10`, the early-stop bound passed to the timing harness. -/
def mulTen (x : WithTop ℚ) : WithTop ℚ := x.map (fun q => q * 10)

/-- One iteration of the `for i in range(amt)` body of `mcts_search`:
tree traversal, the terminal check `if node.children is not None: break`,
`expand_node(node)`, the rollout (compile, prune on failure, time, best
update) and backpropagation.  Returns the iteration outcome and the list of
external calls made. -/
def mctsIter [Inhabited K] (env : Env K O P A D S) (s : SearchState K) :
    IterResult K × List (Event K) :=
  let i := descend env s
  match (nodeAt s.nodes i).children with
  | some _ => (.stop s, [])
  | none =>
    let s1 := expand_node env s i
    let k := (nodeAt s1.nodes i).kernel
    match env.compile k with
    | none =>
      match (nodeAt s1.nodes i).parent with
      | none => (.next s1, [.compileCall k])
      | some p => (.next (removeChild s1 p i), [.compileCall k])
    | some prog =>
      let tm := env.timeProgram prog (mulTen s.bestTm)
      let best' := if (tm : WithTop ℚ) < s.bestTm then k else s.best
      let bestTm' := if (tm : WithTop ℚ) < s.bestTm then (tm : WithTop ℚ) else s.bestTm
      (.next ⟨backprop tm s1.nodes.length i s1.nodes, best', bestTm'⟩,
       [.compileCall k, .timeCall tm, .rolloutDone i])

/-- The driver loop `for i in range(amt)`. -/
def mctsLoop [Inhabited K] (env : Env K O P A D S) :
    ℕ → SearchState K → SearchState K × List (Event K)
  | 0, s => (s, [])
  | n + 1, s =>
    match mctsIter env s with
    | (.stop s', ev) => (s', ev)
    | (.next s', ev) =>
      let r := mctsLoop env n s'
      (r.1, ev ++ r.2)

/-- The fresh tree and accumulator built on a cache miss:
`root = MCTSNode(lin)`, `best, best_tm = lin, math.inf`. -/
def initState (lin : K) : SearchState K := ⟨[⟨lin, 0, 0, none, none⟩], lin, ⊤⟩

/-- The search key computed from the input kernel and the iteration amount. -/
def searchKey (env : Env K O P A D S) (lin : K) (amt : ℕ) : SearchKey A D S :=
  ⟨env.astKey lin, amt, env.device lin, env.suffix lin⟩

/-- Result of a search call: the returned kernel, the final tree state
(`none` when the cache hit and no tree was built), and the trace of external
calls. -/
structure RunResult (K : Type) where
  result : K
  finalState : Option (SearchState K)
  trace : List (Event K)

/-- `mcts_search(lin, rawbufs, amt)` with its observable effects: the cache
check `if not getenv("IGNORE_BEAM_CACHE") and CACHELEVEL >= 1 and
(val := diskcache_get("mcts_search", key)) is not None` replays the cached
transformation sequence onto a copy of the input kernel
(`ret = lin.copy(); for o in val[len(lin.applied_opts):]: ret.apply_opt(o)`)
and returns immediately; otherwise the driver loop runs from the fresh root
and the best kernel found is returned.  The final `diskcache_put` is an
external write with no effect on the returned kernel and is not modelled. -/
def mctsRun [Inhabited K] (env : Env K O P A D S) (lin : K) (amt : ℕ) : RunResult K :=
  let key := searchKey env lin amt
  match (if env.ignoreBeamCache = false ∧ 1 ≤ env.cacheLevel then env.cacheGet key else none) with
  | some val =>
    ⟨(val.drop (env.appliedOpts lin).length).foldl env.applyOpt lin, none, []⟩
  | none =>
    let r := mctsLoop env amt (initState lin)
    ⟨r.1.best, some r.1, r.2⟩

/-- The kernel returned by `mcts_search`. -/
def mcts_search [Inhabited K] (env : Env K O P A D S) (lin : K) (amt : ℕ) : K :=
  (mctsRun env lin amt).result

/-- The kernels submitted to the external compiler, in order. -/
def compileCallsOf : List (Event K) → List K :=
  List.filterMap (fun e => match e with | .compileCall k => some k | _ => none)

/-- The node indices of the completed (non-pruned) rollouts, in order. -/
def rolloutsOf : List (Event K) → List ℕ :=
  List.filterMap (fun e => match e with | .rolloutDone i => some i | _ => none)

/-- The timings obtained from the timing harness, in order. -/
def timeCallsOf : List (Event K) → List ℚ :=
  List.filterMap (fun e => match e with | .timeCall tm => some tm | _ => none)

/-- A predicate on the content of an `Option`, true on `none`. -/
def optP {α : Type} (Q : α → Prop) : Option α → Prop
  | none => True
  | some x => Q x

instance {α : Type} (Q : α → Prop) [DecidablePred Q] :
    (o : Option α) → Decidable (optP Q o)
  | none => isTrue trivial
  | some x => inferInstanceAs (Decidable (Q x))

/-- Structural well-formedness of the arena: nonempty, node 0 is the root
(no parent), parent indices decrease, every non-root node has a parent, and
children lists are duplicate-free in-range indices whose parent field points
back at the node. -/
def WF [Inhabited K] (nodes : List (MCTSNode K)) : Prop :=
  0 < nodes.length ∧
  (nodeAt nodes 0).parent = none ∧
  (∀ i < nodes.length, optP (fun p => p < i) (nodeAt nodes i).parent) ∧
  (∀ i < nodes.length, 0 < i → (nodeAt nodes i).parent ≠ none) ∧
  (∀ i < nodes.length,
    optP (fun cs => cs.Nodup ∧ ∀ c ∈ cs, c < nodes.length ∧ (nodeAt nodes c).parent = some i)
      (nodeAt nodes i).children)

instance [Inhabited K] (nodes : List (MCTSNode K)) : Decidable (WF nodes) := by
  unfold WF; infer_instance

/-- Number of completed rollouts recorded in `rs` that happened in the
subtree of node `i` (at a node whose ancestor chain contains `i`). -/
def countIn [Inhabited K] (nodes : List (MCTSNode K)) (rs : List ℕ) (i : ℕ) : ℕ :=
  (rs.filter (fun j => decide (i ∈ chainOf nodes nodes.length j))).length

/-- The visit-accounting invariant: every node's visit count is the number of
completed rollouts in its subtree, and all recorded rollouts are in range. -/
def CountOK [Inhabited K] (nodes : List (MCTSNode K)) (rs : List ℕ) : Prop :=
  (∀ j ∈ rs, j < nodes.length) ∧
  ∀ i < nodes.length, (nodeAt nodes i).n = countIn nodes rs i

instance [Inhabited K] (nodes : List (MCTSNode K)) (rs : List ℕ) :
    Decidable (CountOK nodes rs) := by
  unfold CountOK; infer_instance

/-! ### Basic arena lemmas -/

variable [Inhabited K]

theorem length_modifyAt {α : Type} (l : List α) (i : ℕ) (f : α → α) :
    (modifyAt l i f).length = l.length := by
  induction l generalizing i with
  | nil => rfl
  | cons a rest ih =>
    cases i with
    | zero => rfl
    | succ j => simp [modifyAt, ih]

theorem getElem?_modifyAt {α : Type} (l : List α) (i j : ℕ) (f : α → α) :
    (modifyAt l i f)[j]? = if i = j then (l[j]?).map f else l[j]? := by
  induction l generalizing i j with
  | nil => simp [modifyAt]
  | cons a rest ih =>
    cases i with
    | zero =>
      cases j with
      | zero => simp [modifyAt]
      | succ j' => simp [modifyAt]
    | succ i' =>
      cases j with
      | zero => simp [modifyAt]
      | succ j' => simpa [modifyAt] using ih i' j'

theorem nodeAt_default (nodes : List (MCTSNode K)) (i : ℕ) (h : nodes.length ≤ i) :
    nodeAt nodes i = default := by
  simp [nodeAt, List.getElem?_eq_none h]

theorem nodeAt_modifyAt_self (nodes : List (MCTSNode K)) (i : ℕ) (f : MCTSNode K → MCTSNode K)
    (h : i < nodes.length) : nodeAt (modifyAt nodes i f) i = f (nodeAt nodes i) := by
  simp [nodeAt, getElem?_modifyAt, List.getElem?_eq_getElem h]

theorem nodeAt_modifyAt_ne (nodes : List (MCTSNode K)) (i j : ℕ) (f : MCTSNode K → MCTSNode K)
    (h : i ≠ j) : nodeAt (modifyAt nodes i f) j = nodeAt nodes j := by
  simp [nodeAt, getElem?_modifyAt, h]

theorem nodeAt_append_lt (l l2 : List (MCTSNode K)) (j : ℕ) (h : j < l.length) :
    nodeAt (l ++ l2) j = nodeAt l j := by
  simp [nodeAt, List.getElem?_append, h]

theorem nodeAt_append_ge (l l2 : List (MCTSNode K)) (j : ℕ) (h : l.length ≤ j) :
    nodeAt (l ++ l2) j = nodeAt l2 (j - l.length) := by
  simp [nodeAt, List.getElem?_append, Nat.not_lt.mpr h]

/-! ### Ancestor-chain lemmas -/

/-- Parent indices strictly decrease (globally; out-of-range nodes are the
default node, which has no parent). -/
def parentsDec (nodes : List (MCTSNode K)) : Prop :=
  ∀ i, optP (fun p => p < i) (nodeAt nodes i).parent

theorem parentsDec_of_wf {nodes : List (MCTSNode K)} (h : WF nodes) : parentsDec nodes := by
  intro i
  by_cases hi : i < nodes.length
  · exact h.2.2.1 i hi
  · rw [nodeAt_default nodes i (Nat.le_of_not_lt hi)]
    exact trivial

theorem parent_zero_of_parentsDec {nodes : List (MCTSNode K)} (pd : parentsDec nodes) :
    (nodeAt nodes 0).parent = none := by
  have := pd 0
  cases hp : (nodeAt nodes 0).parent with
  | none => rfl
  | some p => rw [hp] at this; exact absurd this (by simp [optP])

theorem chain_le {nodes : List (MCTSNode K)} (pd : parentsDec nodes) :
    ∀ f j x, x ∈ chainOf nodes f j → x ≤ j := by
  intro f
  induction f with
  | zero => intro j x hx; simp [chainOf] at hx
  | succ f ih =>
    intro j x hx
    rw [chainOf] at hx
    rcases List.mem_cons.mp hx with h | h
    · omega
    · cases hp : (nodeAt nodes j).parent with
      | none => rw [hp] at h; simp at h
      | some p =>
        rw [hp] at h
        have hpj : p < j := by have := pd j; rw [hp] at this; exact this
        have := ih p x h
        omega

theorem chain_fuel {nodes : List (MCTSNode K)} (pd : parentsDec nodes) :
    ∀ f f' j, j < f → j < f' → chainOf nodes f j = chainOf nodes f' j := by
  intro f
  induction f with
  | zero => intro f' j h; omega
  | succ f ih =>
    intro f' j hf hf'
    cases f' with
    | zero => omega
    | succ f' =>
      rw [chainOf, chainOf]
      cases hp : (nodeAt nodes j).parent with
      | none => rfl
      | some p =>
        have hpj : p < j := by have := pd j; rw [hp] at this; exact this
        exact congrArg (List.cons j) (ih f' p (by omega) (by omega))

theorem chain_congr {ns' nodes : List (MCTSNode K)} (pd : parentsDec nodes) :
    ∀ f j, (∀ x, x ≤ j → (nodeAt ns' x).parent = (nodeAt nodes x).parent) →
      chainOf ns' f j = chainOf nodes f j := by
  intro f
  induction f with
  | zero => intro j _; rfl
  | succ f ih =>
    intro j hagree
    rw [chainOf, chainOf, hagree j le_rfl]
    cases hp : (nodeAt nodes j).parent with
    | none => rfl
    | some p =>
      have hpj : p < j := by have := pd j; rw [hp] at this; exact this
      exact congrArg (List.cons j) (ih p (fun x hx => hagree x (by omega)))

theorem chain_self_mem (nodes : List (MCTSNode K)) (f j : ℕ) (hf : 0 < f) :
    j ∈ chainOf nodes f j := by
  cases f with
  | zero => omega
  | succ f => rw [chainOf]; exact List.mem_cons_self _ _

theorem chain_parent_closed {nodes : List (MCTSNode K)} (pd : parentsDec nodes) :
    ∀ f j, j < f → ∀ x p, x ∈ chainOf nodes f j →
      (nodeAt nodes x).parent = some p → p ∈ chainOf nodes f j := by
  intro f
  induction f with
  | zero => intro j h; omega
  | succ f ih =>
    intro j hj x p hx hxp
    rw [chainOf] at hx ⊢
    rcases List.mem_cons.mp hx with h | h
    · subst h
      rw [hxp]
      have hpx : p < x := by have := pd x; rw [hxp] at this; exact this
      exact List.mem_cons_of_mem _ (chain_self_mem nodes f p (by omega))
    · cases hq : (nodeAt nodes j).parent with
      | none => rw [hq] at h; simp at h
      | some q =>
        rw [hq] at h
        have hqj : q < j := by have := pd j; rw [hq] at this; exact this
        exact List.mem_cons_of_mem _ (ih q (by omega) x p h hxp)

theorem chain_root_mem {nodes : List (MCTSNode K)} (pd : parentsDec nodes)
    (hnr : ∀ x, 0 < x → x < nodes.length → (nodeAt nodes x).parent ≠ none) :
    ∀ f j, j < f → j < nodes.length → 0 ∈ chainOf nodes f j := by
  intro f
  induction f with
  | zero => intro j h; omega
  | succ f ih =>
    intro j hj hjlen
    rw [chainOf]
    by_cases hj0 : j = 0
    · subst hj0; exact List.mem_cons_self _ _
    · cases hp : (nodeAt nodes j).parent with
      | none => exact absurd hp (hnr j (by omega) hjlen)
      | some p =>
        have hpj : p < j := by have := pd j; rw [hp] at this; exact this
        exact List.mem_cons_of_mem _ (ih p (by omega) (by omega))

/-! ### Backpropagation lemmas -/

/-- The statistics update applied to each node of the ancestor chain:
`bnode.t += -(tm*1e6); bnode.n += 1`. -/
def bump (tm : ℚ) (nd : MCTSNode K) : MCTSNode K :=
  { nd with t := nd.t + -(tm * 1000000), n := nd.n + 1 }

theorem length_backprop (tm : ℚ) :
    ∀ f j (nodes : List (MCTSNode K)), (backprop tm f j nodes).length = nodes.length := by
  intro f
  induction f with
  | zero => intro j nodes; rfl
  | succ f ih =>
    intro j nodes
    show (match (nodeAt nodes j).parent with
          | none => modifyAt nodes j (bump tm)
          | some p => backprop tm f p (modifyAt nodes j (bump tm))).length = nodes.length
    cases (nodeAt nodes j).parent with
    | none => exact length_modifyAt nodes j (bump tm)
    | some p => rw [ih p (modifyAt nodes j (bump tm))]; exact length_modifyAt nodes j (bump tm)

theorem parent_modifyAt_bump (nodes : List (MCTSNode K)) (tm : ℚ) (j x : ℕ) :
    (nodeAt (modifyAt nodes j (bump tm)) x).parent = (nodeAt nodes x).parent := by
  by_cases hx : j = x
  · subst hx
    by_cases hj : j < nodes.length
    · rw [nodeAt_modifyAt_self nodes j (bump tm) hj]; rfl
    · rw [nodeAt_default _ _ (by rw [length_modifyAt]; omega), nodeAt_default _ _ (by omega)]
  · rw [nodeAt_modifyAt_ne nodes j x (bump tm) hx]

/-- Effect of the backpropagation walk on the arena: every node on the
ancestor chain of `j` (inclusive of `j` and of the root) gets `bump`ed, and
no other node changes. -/
theorem backprop_nodeAt (tm : ℚ) :
    ∀ f (nodes : List (MCTSNode K)), parentsDec nodes → ∀ j, j < f → j < nodes.length → ∀ x,
      nodeAt (backprop tm f j nodes) x =
        if x ∈ chainOf nodes f j then bump tm (nodeAt nodes x) else nodeAt nodes x := by
  intro f
  induction f with
  | zero => intro nodes pd j h; omega
  | succ f ih =>
    intro nodes pd j hjf hjlen x
    have hred : backprop tm (f + 1) j nodes =
        (match (nodeAt nodes j).parent with
         | none => modifyAt nodes j (bump tm)
         | some p => backprop tm f p (modifyAt nodes j (bump tm))) := rfl
    have hchain : chainOf nodes (f + 1) j =
        j :: (match (nodeAt nodes j).parent with
              | none => []
              | some p => chainOf nodes f p) := rfl
    rw [hred, hchain]
    cases hp : (nodeAt nodes j).parent with
    | none =>
      by_cases hx : x = j
      · subst hx
        rw [nodeAt_modifyAt_self nodes x (bump tm) hjlen]
        simp
      · rw [nodeAt_modifyAt_ne nodes j x (bump tm) (fun h => hx h.symm)]
        simp [hx]
    | some p =>
      have hpj : p < j := by have := pd j; rw [hp] at this; exact this
      have pd' : parentsDec (modifyAt nodes j (bump tm)) := by
        intro i; rw [parent_modifyAt_bump]; exact pd i
      have hlen' : p < (modifyAt nodes j (bump tm)).length := by
        rw [length_modifyAt]; omega
      have hcongr : chainOf (modifyAt nodes j (bump tm)) f p = chainOf nodes f p :=
        chain_congr pd f p (fun x _ => parent_modifyAt_bump nodes tm j x)
      rw [ih (modifyAt nodes j (bump tm)) pd' p (by omega) hlen' x, hcongr]
      by_cases hx : x = j
      · subst hx
        have hnotin : x ∉ chainOf nodes f p := fun hmem => by
          have := chain_le pd f p x hmem; omega
        rw [if_neg hnotin, nodeAt_modifyAt_self nodes x (bump tm) hjlen]
        simp
      · rw [nodeAt_modifyAt_ne nodes j x (bump tm) (fun h => hx h.symm)]
        by_cases hmem : x ∈ chainOf nodes f p
        · rw [if_pos hmem, if_pos (List.mem_cons_of_mem _ hmem)]
        · rw [if_neg hmem, if_neg (by simp [hx, hmem])]

/-! ### Expansion and pruning lemmas -/

theorem expand_best (env : Env K O P A D S) (s : SearchState K) (i : ℕ) :
    (expand_node env s i).best = s.best := rfl

theorem expand_bestTm (env : Env K O P A D S) (s : SearchState K) (i : ℕ) :
    (expand_node env s i).bestTm = s.bestTm := rfl

theorem length_expand (env : Env K O P A D S) (s : SearchState K) (i : ℕ) :
    (expand_node env s i).nodes.length =
      s.nodes.length + (env.actions (nodeAt s.nodes i).kernel).length := by
  simp [expand_node, length_modifyAt]

theorem nodeAt_expand_self (env : Env K O P A D S) (s : SearchState K) (i : ℕ)
    (h : i < s.nodes.length) :
    nodeAt (expand_node env s i).nodes i =
      { nodeAt s.nodes i with
        children := some (List.range' s.nodes.length (env.actions (nodeAt s.nodes i).kernel).length) } := by
  rw [expand_node]
  rw [nodeAt_append_lt _ _ i (by rw [length_modifyAt]; omega)]
  exact nodeAt_modifyAt_self s.nodes i _ h

theorem nodeAt_expand_old (env : Env K O P A D S) (s : SearchState K) (i j : ℕ)
    (hj : j < s.nodes.length) (hne : j ≠ i) :
    nodeAt (expand_node env s i).nodes j = nodeAt s.nodes j := by
  rw [expand_node]
  rw [nodeAt_append_lt _ _ j (by rw [length_modifyAt]; omega)]
  exact nodeAt_modifyAt_ne s.nodes i j _ (fun h => hne h.symm)

theorem nodeAt_expand_new (env : Env K O P A D S) (s : SearchState K) (i m : ℕ)
    (hm : m < (env.actions (nodeAt s.nodes i).kernel).length) :
    nodeAt (expand_node env s i).nodes (s.nodes.length + m) =
      ⟨(env.actions (nodeAt s.nodes i).kernel).get ⟨m, hm⟩, 0, 0, some i, none⟩ := by
  rw [expand_node]
  rw [nodeAt_append_ge _ _ (s.nodes.length + m) (by rw [length_modifyAt]; omega)]
  rw [length_modifyAt]
  simp only [Nat.add_sub_cancel_left]
  rw [nodeAt]
  rw [List.getElem?_map]
  rw [List.getElem?_eq_getElem hm]
  simp

theorem kernel_expand_self (env : Env K O P A D S) (s : SearchState K) (i : ℕ)
    (h : i < s.nodes.length) :
    (nodeAt (expand_node env s i).nodes i).kernel = (nodeAt s.nodes i).kernel := by
  rw [nodeAt_expand_self env s i h]

theorem parent_expand (env : Env K O P A D S) (s : SearchState K) (i x : ℕ)
    (hx : x < s.nodes.length) :
    (nodeAt (expand_node env s i).nodes x).parent = (nodeAt s.nodes x).parent := by
  by_cases hxi : x = i
  · subst hxi; rw [nodeAt_expand_self env s x hx]
  · rw [nodeAt_expand_old env s i x hx hxi]

theorem remove_best (s : SearchState K) (p i : ℕ) : (removeChild s p i).best = s.best := rfl

theorem remove_bestTm (s : SearchState K) (p i : ℕ) :
    (removeChild s p i).bestTm = s.bestTm := rfl

theorem length_remove (s : SearchState K) (p i : ℕ) :
    (removeChild s p i).nodes.length = s.nodes.length := by
  simp [removeChild, length_modifyAt]

theorem nodeAt_remove_self (s : SearchState K) (p i : ℕ) (h : p < s.nodes.length) :
    nodeAt (removeChild s p i).nodes p =
      { nodeAt s.nodes p with
        children := ((nodeAt s.nodes p).children).map (fun cs => cs.erase i) } := by
  rw [removeChild]
  exact nodeAt_modifyAt_self s.nodes p _ h

theorem nodeAt_remove_ne (s : SearchState K) (p i x : ℕ) (h : p ≠ x) :
    nodeAt (removeChild s p i).nodes x = nodeAt s.nodes x := by
  rw [removeChild]
  exact nodeAt_modifyAt_ne s.nodes p x _ h

theorem parent_remove (s : SearchState K) (p i x : ℕ) :
    (nodeAt (removeChild s p i).nodes x).parent = (nodeAt s.nodes x).parent := by
  by_cases hx : p = x
  · subst hx
    by_cases hp : p < s.nodes.length
    · rw [nodeAt_remove_self s p i hp]
    · rw [nodeAt_default _ _ (by rw [length_remove]; omega), nodeAt_default _ _ (by omega)]
  · rw [nodeAt_remove_ne s p i x hx]

/-! ### Selection-policy lemmas -/

/-- `selectGo` started on a scored children list returns the first child of
maximal score: the children list splits as `l1 ++ chosen :: l2` where every
child in `l1` scores strictly below the chosen one, and no child scores
above it. -/
theorem selectGo_spec (f : ℕ → WithTop ℚ) :
    ∀ (cs : List ℕ) (c : ℕ),
      (selectGo (f c) c (cs.map (fun j => (f j, j)))).1 =
        f (selectGo (f c) c (cs.map (fun j => (f j, j)))).2 ∧
      ∃ l1 l2, c :: cs = l1 ++ (selectGo (f c) c (cs.map (fun j => (f j, j)))).2 :: l2 ∧
        (∀ x ∈ l1, f x < f (selectGo (f c) c (cs.map (fun j => (f j, j)))).2) ∧
        (∀ x ∈ c :: cs, f x ≤ f (selectGo (f c) c (cs.map (fun j => (f j, j)))).2) := by
  intro cs
  induction cs with
  | nil =>
    intro c
    refine ⟨rfl, [], [], rfl, by simp, ?_⟩
    intro x hx
    rcases List.mem_singleton.mp hx with rfl
    exact le_rfl
  | cons c' cs' ih =>
    intro c
    have hstep : (selectGo (f c) c ((c' :: cs').map (fun j => (f j, j)))) =
        if f c < f c' then selectGo (f c') c' (cs'.map (fun j => (f j, j)))
        else selectGo (f c) c (cs'.map (fun j => (f j, j))) := by
      rw [List.map_cons, selectGo]
    by_cases h : f c < f c'
    · rw [hstep, if_pos h]
      obtain ⟨hfst, l1, l2, hsplit, hpre, hall⟩ := ih c'
      refine ⟨hfst, c :: l1, l2, by rw [List.cons_append, ← hsplit], ?_, ?_⟩
      · intro x hx
        rcases List.mem_cons.mp hx with rfl | hx
        · exact lt_of_lt_of_le h (hall c' (List.mem_cons_self _ _))
        · exact hpre x hx
      · intro x hx
        rcases List.mem_cons.mp hx with rfl | hx
        · exact le_of_lt (lt_of_lt_of_le h (hall c' (List.mem_cons_self _ _)))
        · exact hall x hx
    · rw [hstep, if_neg h]
      obtain ⟨hfst, l1, l2, hsplit, hpre, hall⟩ := ih c
      have hle : f c' ≤ f c := le_of_not_lt h
      cases l1 with
      | nil =>
        rw [List.nil_append] at hsplit
        injection hsplit with hr hl2
        refine ⟨hfst, [], c' :: cs', by rw [List.nil_append, ← hr], by simp, ?_⟩
        intro x hx
        rcases List.mem_cons.mp hx with rfl | hx
        · exact hall x (List.mem_cons_self _ _)
        · rcases List.mem_cons.mp hx with rfl | hx
          · rw [← hr]; exact hle
          · exact hall x (List.mem_cons_of_mem _ hx)
      | cons y l1' =>
        rw [List.cons_append] at hsplit
        injection hsplit with hy htail
        subst hy
        have hclt : f c < f (selectGo (f c) c (cs'.map (fun j => (f j, j)))).2 :=
          hpre c (List.mem_cons_self _ _)
        refine ⟨hfst, c :: c' :: l1', l2, ?_, ?_, ?_⟩
        · rw [List.cons_append, List.cons_append, ← htail]
        · intro x hx
          rcases List.mem_cons.mp hx with rfl | hx
          · exact hclt
          · rcases List.mem_cons.mp hx with rfl | hx
            · exact lt_of_le_of_lt hle hclt
            · exact hpre x (List.mem_cons_of_mem _ hx)
        · intro x hx
          rcases List.mem_cons.mp hx with rfl | hx
          · exact hall x (List.mem_cons_self _ _)
          · rcases List.mem_cons.mp hx with rfl | hx
            · exact le_of_lt (lt_of_le_of_lt hle hclt)
            · exact hall x (List.mem_cons_of_mem _ hx)

/-- `selectChild` characterized: it is the first child of maximal UCB1 score
in the children list. -/
theorem selectChild_first_max (env : Env K O P A D S) (nodes : List (MCTSNode K))
    (pn : ℕ) (c : ℕ) (cs : List ℕ) :
    ∃ l1 l2, c :: cs = l1 ++ selectChild env nodes pn c cs :: l2 ∧
      (∀ x ∈ l1, ucbScore env pn (nodeAt nodes x) <
        ucbScore env pn (nodeAt nodes (selectChild env nodes pn c cs))) ∧
      (∀ x ∈ c :: cs, ucbScore env pn (nodeAt nodes x) ≤
        ucbScore env pn (nodeAt nodes (selectChild env nodes pn c cs))) :=
  (selectGo_spec (fun j => ucbScore env pn (nodeAt nodes j)) cs c).2

theorem selectChild_mem (env : Env K O P A D S) (nodes : List (MCTSNode K))
    (pn : ℕ) (c : ℕ) (cs : List ℕ) : selectChild env nodes pn c cs ∈ c :: cs := by
  obtain ⟨l1, l2, hsplit, -, -⟩ := selectChild_first_max env nodes pn c cs
  rw [hsplit]
  exact List.mem_append_right l1 (List.mem_cons_self _ _)

theorem descendGo_lt (env : Env K O P A D S) {nodes : List (MCTSNode K)} (wf : WF nodes) :
    ∀ f i, i < nodes.length → descendGo env nodes f i < nodes.length := by
  intro f
  induction f with
  | zero => intro i hi; exact hi
  | succ f ih =>
    intro i hi
    rw [descendGo]
    cases hc : (nodeAt nodes i).children with
    | none => exact hi
    | some cs =>
      cases cs with
      | nil => exact hi
      | cons c cs' =>
        have hcons := wf.2.2.2.2 i hi
        rw [hc] at hcons
        have hmem := selectChild_mem env nodes (nodeAt nodes i).n c cs'
        exact ih _ (hcons.2 _ hmem).1

theorem descend_lt (env : Env K O P A D S) {s : SearchState K} (wf : WF s.nodes) :
    descend env s < s.nodes.length :=
  descendGo_lt env wf s.nodes.length 0 wf.1

/-! ### Iteration case lemmas -/

theorem mctsIter_stop (env : Env K O P A D S) (s : SearchState K) (cs : List ℕ)
    (hchild : (nodeAt s.nodes (descend env s)).children = some cs) :
    mctsIter env s = (.stop s, []) := by
  simp only [mctsIter, hchild]

theorem mctsIter_prune_root (env : Env K O P A D S) (s : SearchState K) (i : ℕ)
    (hi : descend env s = i)
    (hchild : (nodeAt s.nodes i).children = none)
    (hcomp : env.compile (nodeAt (expand_node env s i).nodes i).kernel = none)
    (hpar : (nodeAt (expand_node env s i).nodes i).parent = none) :
    mctsIter env s =
      (.next (expand_node env s i),
       [.compileCall (nodeAt (expand_node env s i).nodes i).kernel]) := by
  simp only [mctsIter, hi, hchild, hcomp, hpar]

theorem mctsIter_prune (env : Env K O P A D S) (s : SearchState K) (i p : ℕ)
    (hi : descend env s = i)
    (hchild : (nodeAt s.nodes i).children = none)
    (hcomp : env.compile (nodeAt (expand_node env s i).nodes i).kernel = none)
    (hpar : (nodeAt (expand_node env s i).nodes i).parent = some p) :
    mctsIter env s =
      (.next (removeChild (expand_node env s i) p i),
       [.compileCall (nodeAt (expand_node env s i).nodes i).kernel]) := by
  simp only [mctsIter, hi, hchild, hcomp, hpar]

theorem mctsIter_rollout (env : Env K O P A D S) (s : SearchState K) (i : ℕ) (prog : P)
    (hi : descend env s = i)
    (hchild : (nodeAt s.nodes i).children = none)
    (hcomp : env.compile (nodeAt (expand_node env s i).nodes i).kernel = some prog) :
    mctsIter env s =
      (.next ⟨backprop (env.timeProgram prog (mulTen s.bestTm))
                (expand_node env s i).nodes.length i (expand_node env s i).nodes,
              if ((env.timeProgram prog (mulTen s.bestTm) : ℚ) : WithTop ℚ) < s.bestTm
                then (nodeAt (expand_node env s i).nodes i).kernel else s.best,
              if ((env.timeProgram prog (mulTen s.bestTm) : ℚ) : WithTop ℚ) < s.bestTm
                then ((env.timeProgram prog (mulTen s.bestTm) : ℚ) : WithTop ℚ) else s.bestTm⟩,
       [.compileCall (nodeAt (expand_node env s i).nodes i).kernel,
        .timeCall (env.timeProgram prog (mulTen s.bestTm)),
        .rolloutDone i]) := by
  simp only [mctsIter, hi, hchild, hcomp]

/-! ### Invariant preservation: expansion -/

theorem WF_expand (env : Env K O P A D S) (s : SearchState K) (i : ℕ)
    (hwf : WF s.nodes) (hi : i < s.nodes.length) : WF (expand_node env s i).nodes := by
  set L := s.nodes.length with hL
  have hlen : (expand_node env s i).nodes.length =
      L + (env.actions (nodeAt s.nodes i).kernel).length := length_expand env s i
  refine ⟨by omega, ?_, ?_, ?_, ?_⟩
  · rw [parent_expand env s i 0 hwf.1]
    exact hwf.2.1
  · intro x hx
    by_cases hxL : x < L
    · rw [parent_expand env s i x hxL]
      exact hwf.2.2.1 x hxL
    · have hm : x - L < (env.actions (nodeAt s.nodes i).kernel).length := by omega
      have : x = L + (x - L) := by omega
      rw [this, nodeAt_expand_new env s i (x - L) hm]
      show i < L + (x - L)
      omega
  · intro x hx hx0
    by_cases hxL : x < L
    · rw [parent_expand env s i x hxL]
      exact hwf.2.2.2.1 x hxL hx0
    · have hm : x - L < (env.actions (nodeAt s.nodes i).kernel).length := by omega
      have : x = L + (x - L) := by omega
      rw [this, nodeAt_expand_new env s i (x - L) hm]
      simp
  · intro x hx
    by_cases hxL : x < L
    · by_cases hxi : x = i
      · subst hxi
        rw [nodeAt_expand_self env s x hxL]
        refine ⟨List.nodup_range' _ _, ?_⟩
        intro c hc
        rw [List.mem_range'_1] at hc
        have hm : c - L < (env.actions (nodeAt s.nodes x).kernel).length := by omega
        have hcL : c = L + (c - L) := by omega
        constructor
        · omega
        · rw [hcL, nodeAt_expand_new env s x (c - L) hm]
      · rw [nodeAt_expand_old env s i x hxL hxi]
        have := hwf.2.2.2.2 x hxL
        cases hcs : (nodeAt s.nodes x).children with
        | none => exact trivial
        | some cs =>
          rw [hcs] at this
          refine ⟨this.1, ?_⟩
          intro c hc
          have hcprop := this.2 c hc
          constructor
          · omega
          · rw [parent_expand env s i c hcprop.1]
            exact hcprop.2
    · have hm : x - L < (env.actions (nodeAt s.nodes i).kernel).length := by omega
      have : x = L + (x - L) := by omega
      rw [this, nodeAt_expand_new env s i (x - L) hm]
      exact trivial

/-- Chains of pre-existing nodes are unchanged by expansion. -/
theorem chain_expand (env : Env K O P A D S) (s : SearchState K) (i : ℕ)
    (hwf : WF s.nodes) (hi : i < s.nodes.length) (j : ℕ) (hj : j < s.nodes.length) :
    chainOf (expand_node env s i).nodes (expand_node env s i).nodes.length j =
      chainOf s.nodes s.nodes.length j := by
  have pd := parentsDec_of_wf hwf
  have pd1 := parentsDec_of_wf (WF_expand env s i hwf hi)
  have hlen : s.nodes.length ≤ (expand_node env s i).nodes.length := by
    rw [length_expand]; omega
  calc chainOf (expand_node env s i).nodes (expand_node env s i).nodes.length j
      = chainOf (expand_node env s i).nodes s.nodes.length j :=
        chain_fuel pd1 _ _ j (by omega) hj
    _ = chainOf s.nodes s.nodes.length j :=
        chain_congr pd s.nodes.length j (fun x hx => parent_expand env s i x (by omega))

theorem countIn_congr {ns' nodes : List (MCTSNode K)} (rs : List ℕ) (x : ℕ)
    (h : ∀ j ∈ rs, chainOf ns' ns'.length j = chainOf nodes nodes.length j) :
    countIn ns' rs x = countIn nodes rs x := by
  unfold countIn
  congr 1
  apply List.filter_congr
  intro j hj
  rw [h j hj]

theorem CountOK_expand (env : Env K O P A D S) (s : SearchState K) (i : ℕ) (rs : List ℕ)
    (hwf : WF s.nodes) (hi : i < s.nodes.length) (hcnt : CountOK s.nodes rs) :
    CountOK (expand_node env s i).nodes rs := by
  set L := s.nodes.length with hL
  have hlen : (expand_node env s i).nodes.length =
      L + (env.actions (nodeAt s.nodes i).kernel).length := length_expand env s i
  have hch : ∀ j ∈ rs, chainOf (expand_node env s i).nodes (expand_node env s i).nodes.length j =
      chainOf s.nodes s.nodes.length j :=
    fun j hj => chain_expand env s i hwf hi j (hcnt.1 j hj)
  refine ⟨fun j hj => by have := hcnt.1 j hj; omega, ?_⟩
  intro x hx
  rw [countIn_congr rs x hch]
  by_cases hxL : x < L
  · have hn : (nodeAt (expand_node env s i).nodes x).n = (nodeAt s.nodes x).n := by
      by_cases hxi : x = i
      · subst hxi; rw [nodeAt_expand_self env s x hxL]
      · rw [nodeAt_expand_old env s i x hxL hxi]
    rw [hn]
    exact hcnt.2 x hxL
  · have hm : x - L < (env.actions (nodeAt s.nodes i).kernel).length := by omega
    have hxeq : x = L + (x - L) := by omega
    have hn : (nodeAt (expand_node env s i).nodes x).n = 0 := by
      rw [hxeq, nodeAt_expand_new env s i (x - L) hm]
    rw [hn]
    have : (rs.filter (fun j => decide (x ∈ chainOf s.nodes s.nodes.length j))) = [] := by
      rw [List.filter_eq_nil_iff]
      intro j hj
      simp only [decide_eq_true_eq]
      intro hmem
      have hle := chain_le (parentsDec_of_wf hwf) s.nodes.length j x hmem
      have := hcnt.1 j hj
      omega
    unfold countIn
    rw [this]
    rfl

/-! ### Invariant preservation: pruning and backpropagation -/

theorem WF_remove (s : SearchState K) (p i : ℕ) (hwf : WF s.nodes) :
    WF (removeChild s p i).nodes := by
  have hlen : (removeChild s p i).nodes.length = s.nodes.length := length_remove s p i
  have h0 := hwf.1
  refine ⟨by omega, ?_, ?_, ?_, ?_⟩
  · rw [parent_remove]; exact hwf.2.1
  · intro x hx; rw [parent_remove]; exact hwf.2.2.1 x (by omega)
  · intro x hx hx0; rw [parent_remove]; exact hwf.2.2.2.1 x (by omega) hx0
  · intro x hx
    rw [hlen] at hx
    by_cases hxp : x = p
    · subst hxp
      rw [nodeAt_remove_self s x i hx]
      have := hwf.2.2.2.2 x hx
      cases hcs : (nodeAt s.nodes x).children with
      | none => exact trivial
      | some cs =>
        rw [hcs] at this
        show optP _ (some (cs.erase i))
        refine ⟨this.1.erase i, ?_⟩
        intro c hc
        have hcmem := List.mem_of_mem_erase hc
        have hcprop := this.2 c hcmem
        refine ⟨by omega, ?_⟩
        rw [parent_remove]
        exact hcprop.2
    · rw [nodeAt_remove_ne s p i x (fun h => hxp h.symm)]
      have := hwf.2.2.2.2 x hx
      cases hcs : (nodeAt s.nodes x).children with
      | none => exact trivial
      | some cs =>
        rw [hcs] at this
        refine ⟨this.1, ?_⟩
        intro c hc
        have hcprop := this.2 c hc
        refine ⟨by omega, ?_⟩
        rw [parent_remove]
        exact hcprop.2

theorem CountOK_remove (s : SearchState K) (p i : ℕ) (rs : List ℕ)
    (hwf : WF s.nodes) (hcnt : CountOK s.nodes rs) :
    CountOK (removeChild s p i).nodes rs := by
  have hlen : (removeChild s p i).nodes.length = s.nodes.length := length_remove s p i
  have pd := parentsDec_of_wf hwf
  have hch : ∀ j ∈ rs, chainOf (removeChild s p i).nodes (removeChild s p i).nodes.length j =
      chainOf s.nodes s.nodes.length j := by
    intro j hj
    rw [hlen]
    exact chain_congr pd s.nodes.length j (fun x _ => parent_remove s p i x)
  refine ⟨fun j hj => by have := hcnt.1 j hj; omega, ?_⟩
  intro x hx
  rw [countIn_congr rs x hch]
  have hn : (nodeAt (removeChild s p i).nodes x).n = (nodeAt s.nodes x).n := by
    by_cases hxp : x = p
    · subst hxp
      by_cases hplen : x < s.nodes.length
      · rw [nodeAt_remove_self s x i hplen]
      · rw [nodeAt_default _ _ (by omega), nodeAt_default _ _ (by omega)]
    · rw [nodeAt_remove_ne s p i x (fun h => hxp h.symm)]
  rw [hn]
  exact hcnt.2 x (by omega)

theorem bump_parent (tm : ℚ) (nd : MCTSNode K) : (bump tm nd).parent = nd.parent := rfl

theorem bump_children (tm : ℚ) (nd : MCTSNode K) : (bump tm nd).children = nd.children := rfl

theorem backprop_parent_eq (tm : ℚ) {nodes : List (MCTSNode K)} (pd : parentsDec nodes)
    (j : ℕ) (hj : j < nodes.length) (x : ℕ) :
    (nodeAt (backprop tm nodes.length j nodes) x).parent = (nodeAt nodes x).parent := by
  rw [backprop_nodeAt tm nodes.length nodes pd j hj hj x]
  by_cases hmem : x ∈ chainOf nodes nodes.length j
  · rw [if_pos hmem, bump_parent]
  · rw [if_neg hmem]

theorem WF_backprop (tm : ℚ) {nodes : List (MCTSNode K)} (hwf : WF nodes)
    (j : ℕ) (hj : j < nodes.length) : WF (backprop tm nodes.length j nodes) := by
  have pd := parentsDec_of_wf hwf
  have hlen : (backprop tm nodes.length j nodes).length = nodes.length :=
    length_backprop tm nodes.length j nodes
  have hmain := backprop_nodeAt tm nodes.length nodes pd j hj hj
  have hch : ∀ x, (nodeAt (backprop tm nodes.length j nodes) x).children =
      (nodeAt nodes x).children := by
    intro x
    rw [hmain x]
    by_cases hmem : x ∈ chainOf nodes nodes.length j
    · rw [if_pos hmem, bump_children]
    · rw [if_neg hmem]
  refine ⟨by omega, ?_, ?_, ?_, ?_⟩
  · rw [backprop_parent_eq tm pd j hj]; exact hwf.2.1
  · intro x hx; rw [backprop_parent_eq tm pd j hj]; exact hwf.2.2.1 x (by omega)
  · intro x hx hx0; rw [backprop_parent_eq tm pd j hj]; exact hwf.2.2.2.1 x (by omega) hx0
  · intro x hx
    rw [hch x]
    have := hwf.2.2.2.2 x (by omega)
    cases hcs : (nodeAt nodes x).children with
    | none => exact trivial
    | some cs =>
      rw [hcs] at this
      refine ⟨this.1, ?_⟩
      intro c hc
      have hcprop := this.2 c hc
      refine ⟨by omega, ?_⟩
      rw [backprop_parent_eq tm pd j hj]
      exact hcprop.2

theorem countIn_append_one {nodes : List (MCTSNode K)} (rs : List ℕ) (j x : ℕ) :
    countIn nodes (rs ++ [j]) x =
      countIn nodes rs x + (if x ∈ chainOf nodes nodes.length j then 1 else 0) := by
  unfold countIn
  rw [List.filter_append, List.length_append]
  congr 1
  by_cases hmem : x ∈ chainOf nodes nodes.length j
  · simp [hmem]
  · simp [hmem]

theorem CountOK_backprop (tm : ℚ) {nodes : List (MCTSNode K)} (rs : List ℕ)
    (hwf : WF nodes) (j : ℕ) (hj : j < nodes.length) (hcnt : CountOK nodes rs) :
    CountOK (backprop tm nodes.length j nodes) (rs ++ [j]) := by
  have pd := parentsDec_of_wf hwf
  have hlen : (backprop tm nodes.length j nodes).length = nodes.length :=
    length_backprop tm nodes.length j nodes
  have hmain := backprop_nodeAt tm nodes.length nodes pd j hj hj
  have hch : ∀ x ∈ rs ++ [j],
      chainOf (backprop tm nodes.length j nodes) (backprop tm nodes.length j nodes).length x =
        chainOf nodes nodes.length x := by
    intro x _
    rw [hlen]
    exact chain_congr pd nodes.length x (fun y _ => backprop_parent_eq tm pd j hj y)
  constructor
  · intro x hx
    rcases List.mem_append.mp hx with hx | hx
    · have := hcnt.1 x hx; omega
    · rcases List.mem_singleton.mp hx with rfl; omega
  · intro x hx
    rw [countIn_congr (rs ++ [j]) x hch, countIn_append_one rs j x, hmain x]
    by_cases hmem : x ∈ chainOf nodes nodes.length j
    · rw [if_pos hmem, if_pos hmem]
      show (nodeAt nodes x).n + 1 = _
      rw [hcnt.2 x (by omega)]
    · rw [if_neg hmem, if_neg hmem]
      rw [hcnt.2 x (by omega)]
      omega

/-! ### Invariant through the driver loop -/

theorem rolloutsOf_append (a b : List (Event K)) :
    rolloutsOf (a ++ b) = rolloutsOf a ++ rolloutsOf b := by
  unfold rolloutsOf
  rw [List.filterMap_append]

theorem compileCallsOf_append (a b : List (Event K)) :
    compileCallsOf (a ++ b) = compileCallsOf a ++ compileCallsOf b := by
  unfold compileCallsOf
  rw [List.filterMap_append]

theorem inv_stop (env : Env K O P A D S) {s s' : SearchState K} {ev : List (Event K)}
    (h : mctsIter env s = (.stop s', ev)) : s' = s ∧ ev = [] := by
  rcases hc : (nodeAt s.nodes (descend env s)).children with _ | cs
  · rcases hcomp : env.compile (nodeAt (expand_node env s (descend env s)).nodes
        (descend env s)).kernel with _ | prog
    · rcases hpar : (nodeAt (expand_node env s (descend env s)).nodes
          (descend env s)).parent with _ | p
      · rw [mctsIter_prune_root env s _ rfl hc hcomp hpar] at h
        injection h with h1 h2
        cases h1
      · rw [mctsIter_prune env s _ p rfl hc hcomp hpar] at h
        injection h with h1 h2
        cases h1
    · rw [mctsIter_rollout env s _ prog rfl hc hcomp] at h
      injection h with h1 h2
      cases h1
  · rw [mctsIter_stop env s cs hc] at h
    injection h with h1 h2
    injection h1 with h1
    exact ⟨h1.symm, h2.symm⟩

theorem inv_next (env : Env K O P A D S) {s s' : SearchState K} {ev : List (Event K)}
    (rs : List ℕ) (hwf : WF s.nodes) (hcnt : CountOK s.nodes rs)
    (h : mctsIter env s = (.next s', ev)) :
    WF s'.nodes ∧ CountOK s'.nodes (rs ++ rolloutsOf ev) := by
  have hi := descend_lt env hwf
  have hwf1 := WF_expand env s (descend env s) hwf hi
  have hcnt1 := CountOK_expand env s (descend env s) rs hwf hi hcnt
  rcases hc : (nodeAt s.nodes (descend env s)).children with _ | cs
  · rcases hcomp : env.compile (nodeAt (expand_node env s (descend env s)).nodes
        (descend env s)).kernel with _ | prog
    · rcases hpar : (nodeAt (expand_node env s (descend env s)).nodes
          (descend env s)).parent with _ | p
      · rw [mctsIter_prune_root env s _ rfl hc hcomp hpar] at h
        injection h with h1 h2
        injection h1 with h1
        subst h1
        subst h2
        constructor
        · exact hwf1
        · show CountOK _ (rs ++ rolloutsOf [Event.compileCall _])
          have : rolloutsOf [Event.compileCall
              (nodeAt (expand_node env s (descend env s)).nodes (descend env s)).kernel] =
              ([] : List ℕ) := rfl
          rw [this, List.append_nil]
          exact hcnt1
      · rw [mctsIter_prune env s _ p rfl hc hcomp hpar] at h
        injection h with h1 h2
        injection h1 with h1
        subst h1
        subst h2
        constructor
        · exact WF_remove _ p (descend env s) hwf1
        · show CountOK _ (rs ++ rolloutsOf [Event.compileCall _])
          have : rolloutsOf [Event.compileCall
              (nodeAt (expand_node env s (descend env s)).nodes (descend env s)).kernel] =
              ([] : List ℕ) := rfl
          rw [this, List.append_nil]
          exact CountOK_remove _ p (descend env s) rs hwf1 hcnt1
    · rw [mctsIter_rollout env s _ prog rfl hc hcomp] at h
      injection h with h1 h2
      injection h1 with h1
      subst h1
      subst h2
      have hilen : descend env s < (expand_node env s (descend env s)).nodes.length := by
        rw [length_expand]; omega
      constructor
      · exact WF_backprop _ hwf1 (descend env s) hilen
      · have : rolloutsOf [Event.compileCall
            (nodeAt (expand_node env s (descend env s)).nodes (descend env s)).kernel,
            Event.timeCall (env.timeProgram prog (mulTen s.bestTm)),
            Event.rolloutDone (descend env s)] = [descend env s] := rfl
        rw [this]
        exact CountOK_backprop _ rs hwf1 (descend env s) hilen hcnt1
  · rw [mctsIter_stop env s cs hc] at h
    injection h with h1 h2
    cases h1

theorem mctsLoop_inv (env : Env K O P A D S) :
    ∀ (n : ℕ) (s : SearchState K) (rs : List ℕ), WF s.nodes → CountOK s.nodes rs →
      WF (mctsLoop env n s).1.nodes ∧
      CountOK (mctsLoop env n s).1.nodes (rs ++ rolloutsOf (mctsLoop env n s).2) := by
  intro n
  induction n with
  | zero =>
    intro s rs hwf hcnt
    show WF s.nodes ∧ CountOK s.nodes (rs ++ rolloutsOf [])
    rw [show rolloutsOf ([] : List (Event K)) = [] from rfl, List.append_nil]
    exact ⟨hwf, hcnt⟩
  | succ n ih =>
    intro s rs hwf hcnt
    rcases hit : mctsIter env s with ⟨r, ev⟩
    cases r with
    | stop s'' =>
      obtain ⟨rfl, rfl⟩ := inv_stop env hit
      simp only [mctsLoop, hit]
      rw [show rolloutsOf ([] : List (Event K)) = [] from rfl, List.append_nil]
      exact ⟨hwf, hcnt⟩
    | next s'' =>
      obtain ⟨hwf'', hcnt''⟩ := inv_next env rs hwf hcnt hit
      have := ih s'' (rs ++ rolloutsOf ev) hwf'' hcnt''
      simp only [mctsLoop, hit]
      rw [rolloutsOf_append, ← List.append_assoc]
      exact this

theorem WF_init (lin : K) : WF (initState lin).nodes := by
  refine ⟨by simp [initState], ?_, ?_, ?_, ?_⟩
  · simp [initState, nodeAt]
  · intro i hi
    simp [initState] at hi
    subst hi
    simp [initState, nodeAt, optP]
  · intro i hi hi0
    simp [initState] at hi
    omega
  · intro i hi
    simp [initState] at hi
    subst hi
    simp [initState, nodeAt, optP]

theorem CountOK_init (lin : K) : CountOK (initState lin).nodes [] := by
  constructor
  · intro j hj
    simp at hj
  · intro i hi
    simp [initState] at hi
    subst hi
    simp [initState, nodeAt, countIn]

/-! ### Concrete environments for witnesses and counterexamples -/

/-- Concrete environment: no kernel has any action, compilation always
succeeds, every timing is 1, cache enabled but empty (every lookup misses). -/
def envEmptyActs : Env ℕ ℕ ℕ Unit Unit Unit :=
  ⟨fun _ => [], fun _ => some 0, fun _ _ => 1, fun q => q, fun _ => 0,
   false, 1, fun _ => none, fun _ => [], fun k _ => k, fun _ => (), fun _ => (), fun _ => ()⟩

/-- Concrete environment: kernel 0 has exactly one action producing kernel 1,
which has no further actions; compilation always succeeds with timing 1. -/
def envOneAct : Env ℕ ℕ ℕ Unit Unit Unit :=
  ⟨fun k => if k = 0 then [1] else [], fun _ => some 0, fun _ _ => 1, fun q => q, fun _ => 0,
   false, 1, fun _ => none, fun _ => [], fun k _ => k, fun _ => (), fun _ => (), fun _ => ()⟩

/-- Concrete environment whose compiler always fails. -/
def envNoCompile : Env ℕ ℕ ℕ Unit Unit Unit :=
  ⟨fun _ => [], fun _ => none, fun _ _ => 1, fun q => q, fun _ => 0,
   false, 1, fun _ => none, fun _ => [], fun k _ => k, fun _ => (), fun _ => (), fun _ => ()⟩

/-- Concrete environment over `K = List ℕ` kernels whose applied-opts
sequence is the kernel itself; the cache maps every key to `[7, 8]`. -/
def envCacheHit : Env (List ℕ) ℕ ℕ Unit Unit Unit :=
  ⟨fun _ => [], fun _ => some 0, fun _ _ => 1, fun q => q, fun _ => 0,
   false, 1, fun _ => some [7, 8], fun k => k, fun k o => k ++ [o],
   fun _ => (), fun _ => (), fun _ => ()⟩

/-! ### C7: terminal nodes stop the descent and the whole search -/

/-- C7: whenever the tree descent reaches a node whose children collection is
expanded but empty, the descent stops at that node; when the descent result
has expanded children the iteration is a complete no-op (state unchanged, no
external calls, hence no expansion, rollout or backpropagation), and the
driver loop terminates immediately regardless of the remaining budget. -/
theorem C7_terminal_stops_search (env : Env K O P A D S) :
    (∀ (nodes : List (MCTSNode K)) (f i : ℕ), (nodeAt nodes i).children = some [] →
      descendGo env nodes (f + 1) i = i) ∧
    (∀ (s : SearchState K) (cs : List ℕ),
      (nodeAt s.nodes (descend env s)).children = some cs →
      mctsIter env s = (.stop s, [])) ∧
    (∀ (s : SearchState K) (n : ℕ), mctsIter env s = (.stop s, []) →
      mctsLoop env (n + 1) s = (s, [])) := by
  refine ⟨?_, ?_, ?_⟩
  · intro nodes f i h
    rw [descendGo, h]
  · intro s cs h
    exact mctsIter_stop env s cs h
  · intro s n h
    simp only [mctsLoop, h]

/-- Witness for C7 on a concrete terminal state. -/
theorem C7_witness :
    descendGo envEmptyActs [⟨0, 0, 0, none, some []⟩] 3 0 = 0 ∧
    mctsIter envEmptyActs ⟨[⟨0, 0, 0, none, some []⟩], 5, ⊤⟩ =
      (.stop ⟨[⟨0, 0, 0, none, some []⟩], 5, ⊤⟩, []) ∧
    mctsLoop envEmptyActs 7 ⟨[⟨0, 0, 0, none, some []⟩], 5, ⊤⟩ =
      (⟨[⟨0, 0, 0, none, some []⟩], 5, ⊤⟩, []) := by
  have h := C7_terminal_stops_search envEmptyActs
  refine ⟨h.1 [⟨0, 0, 0, none, some []⟩] 2 0 (by decide), ?_, ?_⟩
  · exact h.2.1 ⟨[⟨0, 0, 0, none, some []⟩], 5, ⊤⟩ [] (by decide)
  · exact h.2.2 ⟨[⟨0, 0, 0, none, some []⟩], 5, ⊤⟩ 6
      (h.2.1 ⟨[⟨0, 0, 0, none, some []⟩], 5, ⊤⟩ [] (by decide))

/-! ### C3: UCB1 scoring and first-maximum selection -/

/-- C3: during selection over a non-empty children list, a child with
`visit_count = 0` scores positive infinity, a visited child scores
`total_reward/visit_count + sqrt(2) * sqrt(ln(parent visits)/visit_count)`
(with `math.sqrt`/`math.log` the environment's float library functions), the
first child of maximal score is selected (ties broken by the list order), and
whenever some child is unvisited the selected child is unvisited. -/
theorem C3_ucb_selection (env : Env K O P A D S) (nodes : List (MCTSNode K))
    (pn c : ℕ) (cs : List ℕ) :
    (∀ nd : MCTSNode K, nd.n = 0 → ucbScore env pn nd = ⊤) ∧
    (∀ nd : MCTSNode K, nd.n ≠ 0 → ucbScore env pn nd =
      ((nd.t / (nd.n : ℚ) + env.sqrt 2 * env.sqrt (env.log pn / (nd.n : ℚ)) : ℚ) : WithTop ℚ)) ∧
    (∃ l1 l2, c :: cs = l1 ++ selectChild env nodes pn c cs :: l2 ∧
      (∀ x ∈ l1, ucbScore env pn (nodeAt nodes x) <
        ucbScore env pn (nodeAt nodes (selectChild env nodes pn c cs))) ∧
      (∀ x ∈ c :: cs, ucbScore env pn (nodeAt nodes x) ≤
        ucbScore env pn (nodeAt nodes (selectChild env nodes pn c cs)))) ∧
    ((∃ x ∈ c :: cs, (nodeAt nodes x).n = 0) →
      (nodeAt nodes (selectChild env nodes pn c cs)).n = 0) := by
  refine ⟨?_, ?_, selectChild_first_max env nodes pn c cs, ?_⟩
  · intro nd h
    rw [ucbScore, if_pos h]
  · intro nd h
    rw [ucbScore, if_neg h]
    rfl
  · intro ⟨x, hx, hx0⟩
    obtain ⟨l1, l2, hsplit, hpre, hall⟩ := selectChild_first_max env nodes pn c cs
    have hxtop : ucbScore env pn (nodeAt nodes x) = ⊤ := by
      rw [ucbScore, if_pos hx0]
    have htop : ucbScore env pn (nodeAt nodes (selectChild env nodes pn c cs)) = ⊤ :=
      top_le_iff.mp (hxtop ▸ hall x hx)
    by_contra hne
    rw [ucbScore, if_neg hne] at htop
    exact WithTop.coe_ne_top htop

/-- Witness for C3: with one visited child (index 1, score `-5`) and one
unvisited child (index 2, score `⊤`), the unvisited child is selected. -/
theorem C3_witness :
    selectChild envEmptyActs
      [⟨0, 0, 2, none, some [1, 2]⟩, ⟨1, -5, 1, some 0, none⟩, ⟨2, 0, 0, some 0, none⟩]
      2 1 [2] = 2 ∧
    (nodeAt [⟨0, 0, 2, none, some [1, 2]⟩, ⟨1, -5, 1, some 0, none⟩,
      ⟨2, 0, 0, some 0, none⟩] (selectChild envEmptyActs
        [⟨0, 0, 2, none, some [1, 2]⟩, ⟨1, -5, 1, some 0, none⟩, ⟨2, 0, 0, some 0, none⟩]
        2 1 [2])).n = 0 := by
  refine ⟨by decide, ?_⟩
  exact (C3_ucb_selection envEmptyActs
    [⟨0, 0, 2, none, some [1, 2]⟩, ⟨1, -5, 1, some 0, none⟩, ⟨2, 0, 0, some 0, none⟩]
    2 1 [2]).2.2.2 ⟨2, by decide, by decide⟩

/-! ### C6: which kernel is compiled during a rollout -/

/-- C6 (amended): in every iteration that performs a compile, the kernel
submitted to the compiler is the kernel of the node reached by the descent —
the node expanded in that same iteration (its `children` were `none` before
the iteration) — not one of the children created by the expansion. -/
theorem C6_rollout_compiles_selected_node (env : Env K O P A D S) (s : SearchState K)
    (r : IterResult K) (ev : List (Event K)) (k : K)
    (h : mctsIter env s = (r, ev)) (hk : Event.compileCall k ∈ ev) :
    (nodeAt s.nodes (descend env s)).children = none ∧
    k = (nodeAt (expand_node env s (descend env s)).nodes (descend env s)).kernel ∧
    (descend env s < s.nodes.length → k = (nodeAt s.nodes (descend env s)).kernel) := by
  rcases hc : (nodeAt s.nodes (descend env s)).children with _ | cs
  · rcases hcomp : env.compile (nodeAt (expand_node env s (descend env s)).nodes
        (descend env s)).kernel with _ | prog
    · rcases hpar : (nodeAt (expand_node env s (descend env s)).nodes
          (descend env s)).parent with _ | p
      · rw [mctsIter_prune_root env s _ rfl hc hcomp hpar] at h
        injection h with h1 h2
        subst h2
        rcases List.mem_singleton.mp hk with hkk
        injection hkk with hkk
        exact ⟨rfl, hkk, fun hlt => hkk.trans (kernel_expand_self env s _ hlt)⟩
      · rw [mctsIter_prune env s _ p rfl hc hcomp hpar] at h
        injection h with h1 h2
        subst h2
        rcases List.mem_singleton.mp hk with hkk
        injection hkk with hkk
        exact ⟨rfl, hkk, fun hlt => hkk.trans (kernel_expand_self env s _ hlt)⟩
    · rw [mctsIter_rollout env s _ prog rfl hc hcomp] at h
      injection h with h1 h2
      subst h2
      have hkk : k = (nodeAt (expand_node env s (descend env s)).nodes
          (descend env s)).kernel := by
        rcases List.mem_cons.mp hk with heq | hk2
        · injection heq
        · rcases List.mem_cons.mp hk2 with heq | hk3
          · cases heq
          · rcases List.mem_singleton.mp hk3 with heq
            cases heq
      exact ⟨rfl, hkk, fun hlt => hkk.trans (kernel_expand_self env s _ hlt)⟩
  · rw [mctsIter_stop env s cs hc] at h
    injection h with h1 h2
    subst h2
    cases hk

/-- Counterexample to C6 as stated: with root kernel `0` whose single action
produces kernel `1`, the first iteration expands the root (creating the child
kernel list `[1]`) and submits the root's own kernel `0` to the compiler;
`0` is not among the kernels of the children created by that expansion. -/
theorem C6_counterexample :
    compileCallsOf (mctsRun envOneAct 0 1).trace = [0] ∧
    (mctsRun envOneAct 0 1).finalState.map
      (fun s => ((nodeAt s.nodes 0).children.getD []).map
        (fun c => (nodeAt s.nodes c).kernel)) = some [1] ∧
    (0 : ℕ) ∉ [1] := by decide

/-- Witness for the amended C6 at a concrete input. -/
theorem C6_witness :
    (nodeAt (initState (0 : ℕ)).nodes (descend envOneAct (initState 0))).children = none ∧
    (0 : ℕ) = (nodeAt (expand_node envOneAct (initState 0)
      (descend envOneAct (initState 0))).nodes (descend envOneAct (initState 0))).kernel := by
  have h := C6_rollout_compiles_selected_node envOneAct (initState 0)
    (mctsIter envOneAct (initState 0)).1 (mctsIter envOneAct (initState 0)).2 0
    rfl (by decide)
  exact ⟨h.1, h.2.1⟩

/-! ### C2: compile failures prune locally and never abort the search -/

/-- C2: when the compiler fails on the rolled-out node's kernel, the node is
removed from its parent's children collection (absent afterwards) if it has a
parent, nothing is removed if it is the root, the iteration is aborted with
no timing call, no completed rollout, and no statistic (`n` or `t`) of any
pre-existing node changed, and in both cases the iteration result is `.next`
(the loop continues); the embedded search is a total function, so a search
call always returns a kernel and never raises. -/
theorem C2_compile_failure_pruning (env : Env K O P A D S) (s : SearchState K) (i : ℕ)
    (hwf : WF s.nodes) (hi : descend env s = i)
    (hchild : (nodeAt s.nodes i).children = none)
    (hcomp : env.compile (nodeAt (expand_node env s i).nodes i).kernel = none) :
    (∀ (lin : K) (amt : ℕ), mcts_search env lin amt = (mctsRun env lin amt).result) ∧
    ((nodeAt (expand_node env s i).nodes i).parent = none →
      mctsIter env s = (.next (expand_node env s i),
        [.compileCall (nodeAt (expand_node env s i).nodes i).kernel])) ∧
    (∀ p, (nodeAt (expand_node env s i).nodes i).parent = some p →
      mctsIter env s = (.next (removeChild (expand_node env s i) p i),
        [.compileCall (nodeAt (expand_node env s i).nodes i).kernel]) ∧
      optP (fun cs => i ∉ cs)
        (nodeAt ((mctsIter env s).1.state).nodes p).children) ∧
    (∀ x, x < s.nodes.length →
      (nodeAt ((mctsIter env s).1.state).nodes x).n = (nodeAt s.nodes x).n ∧
      (nodeAt ((mctsIter env s).1.state).nodes x).t = (nodeAt s.nodes x).t) ∧
    timeCallsOf (mctsIter env s).2 = [] ∧
    rolloutsOf (mctsIter env s).2 = [] := by
  subst hi
  have hdlt : descend env s < s.nodes.length := descend_lt env hwf
  have hstat : ∀ x, x < s.nodes.length →
      (nodeAt (expand_node env s (descend env s)).nodes x).n = (nodeAt s.nodes x).n ∧
      (nodeAt (expand_node env s (descend env s)).nodes x).t = (nodeAt s.nodes x).t := by
    intro x hx
    by_cases hxi : x = descend env s
    · subst hxi
      rw [nodeAt_expand_self env s _ hx]
      exact ⟨rfl, rfl⟩
    · rw [nodeAt_expand_old env s (descend env s) x hx hxi]
      exact ⟨rfl, rfl⟩
  rcases hpar : (nodeAt (expand_node env s (descend env s)).nodes
      (descend env s)).parent with _ | p
  · have hit := mctsIter_prune_root env s (descend env s) rfl hchild hcomp hpar
    have hstate : (mctsIter env s).1.state = expand_node env s (descend env s) := by
      rw [hit]
      rfl
    have htr : (mctsIter env s).2 = [Event.compileCall
        (nodeAt (expand_node env s (descend env s)).nodes (descend env s)).kernel] := by
      rw [hit]
    refine ⟨fun lin amt => rfl, fun _ => hit, ?_, ?_, ?_, ?_⟩
    · intro p hp
      cases hp
    · intro x hx
      rw [hstate]
      exact hstat x hx
    · rw [htr]
      rfl
    · rw [htr]
      rfl
  · have hit := mctsIter_prune env s (descend env s) p rfl hchild hcomp hpar
    have hstate : (mctsIter env s).1.state =
        removeChild (expand_node env s (descend env s)) p (descend env s) := by
      rw [hit]
      rfl
    have htr : (mctsIter env s).2 = [Event.compileCall
        (nodeAt (expand_node env s (descend env s)).nodes (descend env s)).kernel] := by
      rw [hit]
    have hplt : p < descend env s := by
      have hwf1 := WF_expand env s (descend env s) hwf hdlt
      have := hwf1.2.2.1 (descend env s) (by rw [length_expand]; omega)
      rw [hpar] at this
      exact this
    refine ⟨fun lin amt => rfl, ?_, ?_, ?_, ?_, ?_⟩
    · intro hp
      cases hp
    · intro p' hp'
      injection hp' with hp'
      subst hp'
      refine ⟨hit, ?_⟩
      rw [hstate]
      have hpslen : p < s.nodes.length := by omega
      have hps1len : p < (expand_node env s (descend env s)).nodes.length := by
        rw [length_expand]; omega
      rw [nodeAt_remove_self _ p (descend env s) hps1len]
      show optP (fun cs => descend env s ∉ cs)
        (((nodeAt (expand_node env s (descend env s)).nodes p).children).map
          (fun cs => cs.erase (descend env s)))
      rw [nodeAt_expand_old env s (descend env s) p hpslen (by omega)]
      cases hcs : (nodeAt s.nodes p).children with
      | none => exact trivial
      | some cs =>
        show descend env s ∉ cs.erase (descend env s)
        have hnodup : cs.Nodup := by
          have := hwf.2.2.2.2 p hpslen
          rw [hcs] at this
          exact this.1
        exact hnodup.not_mem_erase
    · intro x hx
      rw [hstate]
      by_cases hxp : p = x
      · subst hxp
        rw [nodeAt_remove_self _ p (descend env s) (by rw [length_expand]; omega)]
        exact hstat p hx
      · rw [nodeAt_remove_ne _ p (descend env s) x hxp]
        exact hstat x hx
    · rw [htr]
      rfl
    · rw [htr]
      rfl

/-- Witness for C2 on a concrete state whose selected node's compile fails
and has a parent: the node is pruned from its parent's children. -/
theorem C2_witness :
    optP (fun cs => 1 ∉ cs)
      (nodeAt ((mctsIter envNoCompile
        ⟨[⟨0, 0, 1, none, some [1]⟩, ⟨5, 0, 0, some 0, none⟩], 0, ⊤⟩).1.state).nodes 0).children ∧
    timeCallsOf (mctsIter envNoCompile
      ⟨[⟨0, 0, 1, none, some [1]⟩, ⟨5, 0, 0, some 0, none⟩], 0, ⊤⟩).2 = [] := by
  have h := C2_compile_failure_pruning envNoCompile
    ⟨[⟨0, 0, 1, none, some [1]⟩, ⟨5, 0, 0, some 0, none⟩], 0, ⊤⟩ 1
    (by decide) (by decide) (by decide) (by decide)
  exact ⟨(h.2.2.1 0 (by decide)).2, h.2.2.2.2.1⟩

/-! ### C8: the best-result accumulator is monotone -/

/-- C8: the accumulator starts as the input kernel paired with the infinite
sentinel; each iteration leaves `bestTm` no larger; when a timing `tm` is
measured it updates the accumulator to the rolled-out node's kernel and `tm`
exactly if `tm` is strictly below the current best, and an iteration with no
timing leaves the accumulator unchanged; hence `bestTm` is non-increasing
across the whole loop. -/
theorem C8_monotonic_best (env : Env K O P A D S) :
    (∀ lin : K, (initState lin).best = lin ∧ (initState lin).bestTm = ⊤) ∧
    (∀ s : SearchState K, ((mctsIter env s).1.state).bestTm ≤ s.bestTm) ∧
    (∀ (s : SearchState K) (r : IterResult K) (ev : List (Event K)),
      mctsIter env s = (r, ev) →
      (∀ tm : ℚ, Event.timeCall tm ∈ ev →
        (((tm : WithTop ℚ) < s.bestTm →
          r.state.bestTm = (tm : WithTop ℚ) ∧
          r.state.best = (nodeAt (expand_node env s (descend env s)).nodes
            (descend env s)).kernel) ∧
        (¬ (tm : WithTop ℚ) < s.bestTm →
          r.state.bestTm = s.bestTm ∧ r.state.best = s.best))) ∧
      ((∀ tm : ℚ, Event.timeCall tm ∉ ev) →
        r.state.bestTm = s.bestTm ∧ r.state.best = s.best)) ∧
    (∀ (n : ℕ) (s : SearchState K), ((mctsLoop env n s).1).bestTm ≤ s.bestTm) := by
  have hiter : ∀ (s : SearchState K) (r : IterResult K) (ev : List (Event K)),
      mctsIter env s = (r, ev) →
      r.state.bestTm ≤ s.bestTm ∧
      (∀ tm : ℚ, Event.timeCall tm ∈ ev →
        (((tm : WithTop ℚ) < s.bestTm →
          r.state.bestTm = (tm : WithTop ℚ) ∧
          r.state.best = (nodeAt (expand_node env s (descend env s)).nodes
            (descend env s)).kernel) ∧
        (¬ (tm : WithTop ℚ) < s.bestTm →
          r.state.bestTm = s.bestTm ∧ r.state.best = s.best))) ∧
      ((∀ tm : ℚ, Event.timeCall tm ∉ ev) →
        r.state.bestTm = s.bestTm ∧ r.state.best = s.best) := by
    intro s r ev h
    rcases hc : (nodeAt s.nodes (descend env s)).children with _ | cs
    · rcases hcomp : env.compile (nodeAt (expand_node env s (descend env s)).nodes
          (descend env s)).kernel with _ | prog
      · rcases hpar : (nodeAt (expand_node env s (descend env s)).nodes
            (descend env s)).parent with _ | p
        · rw [mctsIter_prune_root env s _ rfl hc hcomp hpar] at h
          injection h with h1 h2
          subst h1
          subst h2
          refine ⟨le_rfl, ?_, fun _ => ⟨rfl, rfl⟩⟩
          intro tm htm
          rcases List.mem_singleton.mp htm with heq
          cases heq
        · rw [mctsIter_prune env s _ p rfl hc hcomp hpar] at h
          injection h with h1 h2
          subst h1
          subst h2
          refine ⟨le_rfl, ?_, fun _ => ⟨rfl, rfl⟩⟩
          intro tm htm
          rcases List.mem_singleton.mp htm with heq
          cases heq
      · rw [mctsIter_rollout env s _ prog rfl hc hcomp] at h
        injection h with h1 h2
        subst h1
        subst h2
        refine ⟨?_, ?_, ?_⟩
        · show (if ((env.timeProgram prog (mulTen s.bestTm) : ℚ) : WithTop ℚ) < s.bestTm
              then ((env.timeProgram prog (mulTen s.bestTm) : ℚ) : WithTop ℚ)
              else s.bestTm) ≤ s.bestTm
          by_cases hlt : ((env.timeProgram prog (mulTen s.bestTm) : ℚ) : WithTop ℚ) < s.bestTm
          · rw [if_pos hlt]
            exact le_of_lt hlt
          · rw [if_neg hlt]
        · intro tm htm
          have htmeq : tm = env.timeProgram prog (mulTen s.bestTm) := by
            rcases List.mem_cons.mp htm with heq | htm2
            · cases heq
            · rcases List.mem_cons.mp htm2 with heq | htm3
              · injection heq
              · rcases List.mem_singleton.mp htm3 with heq
                cases heq
          subst htmeq
          constructor
          · intro hlt
            show (if _ then _ else _) = _ ∧ (if _ then _ else _) = _
            rw [if_pos hlt, if_pos hlt]
            exact ⟨rfl, rfl⟩
          · intro hlt
            show (if _ then _ else _) = _ ∧ (if _ then _ else _) = _
            rw [if_neg hlt, if_neg hlt]
            exact ⟨rfl, rfl⟩
        · intro hno
          exact absurd (List.mem_cons_of_mem _ (List.mem_cons_self _ _))
            (hno (env.timeProgram prog (mulTen s.bestTm)))
    · rw [mctsIter_stop env s cs hc] at h
      injection h with h1 h2
      subst h1
      subst h2
      refine ⟨le_rfl, ?_, fun _ => ⟨rfl, rfl⟩⟩
      intro tm htm
      cases htm
  refine ⟨fun lin => ⟨rfl, rfl⟩, ?_, ?_, ?_⟩
  · intro s
    exact (hiter s (mctsIter env s).1 (mctsIter env s).2 rfl).1
  · intro s r ev h
    exact ⟨(hiter s r ev h).2.1, (hiter s r ev h).2.2⟩
  · intro n
    induction n with
    | zero => intro s; exact le_rfl
    | succ n ih =>
      intro s
      rcases hit : mctsIter env s with ⟨r, ev⟩
      cases r with
      | stop s'' =>
        simp only [mctsLoop, hit]
        exact (hiter s (.stop s'') ev hit).1
      | next s'' =>
        simp only [mctsLoop, hit]
        exact le_trans (ih s'') (hiter s (.next s'') ev hit).1

/-- Witness for C8 at a concrete input: one rollout with timing 1 improves on
the infinite sentinel, so the accumulator becomes the rolled-out kernel with
timing 1. -/
theorem C8_witness :
    ((mctsIter envOneAct (initState 0)).1.state).bestTm ≤ (initState (0 : ℕ)).bestTm ∧
    ((mctsLoop envOneAct 5 (initState 0)).1).bestTm ≤ (initState (0 : ℕ)).bestTm ∧
    (initState (0 : ℕ)).best = 0 ∧ (initState (0 : ℕ)).bestTm = ⊤ ∧
    ((mctsIter envOneAct (initState 0)).1.state).bestTm = ((1 : ℚ) : WithTop ℚ) := by
  have h := C8_monotonic_best envOneAct
  refine ⟨h.2.1 (initState 0), h.2.2.2 5 (initState 0), (h.1 0).1, (h.1 0).2, ?_⟩
  have := ((h.2.2.1 (initState 0) (mctsIter envOneAct (initState 0)).1
    (mctsIter envOneAct (initState 0)).2 rfl).1 1 (by decide)).1 (by decide)
  exact this.1

/-! ### C5: cache round-trip -/

theorem appliedOpts_foldl (env : Env K O P A D S)
    (hlaw : ∀ k o, env.appliedOpts (env.applyOpt k o) = env.appliedOpts k ++ [o]) :
    ∀ (l : List O) (k : K), env.appliedOpts (l.foldl env.applyOpt k) = env.appliedOpts k ++ l := by
  intro l
  induction l with
  | nil => intro k; simp
  | cons o l ih =>
    intro k
    rw [List.foldl_cons, ih (env.applyOpt k o), hlaw k o]
    simp

/-- C5: if caching is enabled and the cache holds, for the search key of the
input kernel and iteration amount, a transformation sequence `T` extending the
input kernel's applied transformations, then the search returns immediately
the replay of the cached sequence onto a copy of the input kernel — whose
applied transformations equal `T` — with no tree built and no compiler or
timer call. -/
theorem C5_cache_round_trip (env : Env K O P A D S) (lin : K) (amt : ℕ)
    (T rest : List O)
    (hnign : env.ignoreBeamCache = false)
    (hlvl : 1 ≤ env.cacheLevel)
    (hget : env.cacheGet (searchKey env lin amt) = some T)
    (hext : T = env.appliedOpts lin ++ rest)
    (hlaw : ∀ k o, env.appliedOpts (env.applyOpt k o) = env.appliedOpts k ++ [o]) :
    mctsRun env lin amt =
      ⟨(T.drop (env.appliedOpts lin).length).foldl env.applyOpt lin, none, []⟩ ∧
    env.appliedOpts (mctsRun env lin amt).result = T ∧
    (mctsRun env lin amt).finalState = none ∧
    (mctsRun env lin amt).trace = [] ∧
    compileCallsOf (mctsRun env lin amt).trace = [] ∧
    timeCallsOf (mctsRun env lin amt).trace = [] := by
  have hcond : (if env.ignoreBeamCache = false ∧ 1 ≤ env.cacheLevel
      then env.cacheGet (searchKey env lin amt) else none) = some T := by
    rw [if_pos ⟨hnign, hlvl⟩, hget]
  have hrun : mctsRun env lin amt =
      ⟨(T.drop (env.appliedOpts lin).length).foldl env.applyOpt lin, none, []⟩ := by
    simp only [mctsRun, hcond]
  have hres : env.appliedOpts (mctsRun env lin amt).result = T := by
    rw [hrun]
    show env.appliedOpts ((T.drop (env.appliedOpts lin).length).foldl env.applyOpt lin) = T
    rw [appliedOpts_foldl env hlaw, hext, List.drop_left]
  refine ⟨hrun, hres, ?_, ?_, ?_, ?_⟩ <;> rw [hrun] <;> rfl

/-- Witness for C5: the cache holds `[7, 8]`, the input kernel has applied
sequence `[7]`, and the search returns the kernel with applied sequence
`[7, 8]` with empty trace and no tree. -/
theorem C5_witness :
    mctsRun envCacheHit [7] 3 = ⟨[7, 8], none, []⟩ ∧
    envCacheHit.appliedOpts (mctsRun envCacheHit [7] 3).result = [7, 8] := by
  have h := C5_cache_round_trip envCacheHit [7] 3 [7, 8] [8]
    (by decide) (by decide) (by decide) (by decide) (fun k o => rfl)
  exact ⟨h.1, h.2.1⟩

/-! ### Empty root expansion: first iteration and termination -/

theorem descend_init (env : Env K O P A D S) (lin : K) :
    descend env (initState lin) = 0 := rfl

theorem expand_init (env : Env K O P A D S) (lin : K) (hacts : env.actions lin = []) :
    expand_node env (initState lin) 0 =
      (⟨[⟨lin, 0, 0, none, some []⟩], lin, ⊤⟩ : SearchState K) := by
  have hk : env.actions (nodeAt (initState lin).nodes 0).kernel = [] := hacts
  simp only [expand_node, hk]
  rfl

/-- The first iteration on a root with no legal actions: the root is expanded
to an empty children list and then rolled out (its own kernel is compiled;
on success it is timed, the accumulator is updated to the root's kernel, and
backpropagation gives the root one visit). -/
theorem iter_empty_actions (env : Env K O P A D S) (lin : K)
    (hacts : env.actions lin = []) :
    (∀ prog : P, env.compile lin = some prog →
      mctsIter env (initState lin) =
        (.next ⟨[⟨lin, -(env.timeProgram prog ⊤ * 1000000), 1, none, some []⟩], lin,
                 ((env.timeProgram prog ⊤ : ℚ) : WithTop ℚ)⟩,
         [.compileCall lin, .timeCall (env.timeProgram prog ⊤), .rolloutDone 0])) ∧
    (env.compile lin = none →
      mctsIter env (initState lin) =
        (.next ⟨[⟨lin, 0, 0, none, some []⟩], lin, ⊤⟩, [.compileCall lin])) := by
  constructor
  · intro prog hcomp
    have hchild : (nodeAt (initState lin).nodes 0).children = none := rfl
    have hcomp' : env.compile
        (nodeAt (expand_node env (initState lin) 0).nodes 0).kernel = some prog := by
      rw [expand_init env lin hacts]
      exact hcomp
    rw [mctsIter_rollout env (initState lin) 0 prog (descend_init env lin) hchild hcomp']
    rw [expand_init env lin hacts]
    have htm : mulTen (initState lin).bestTm = ⊤ := rfl
    rw [htm]
    have hlt : ((env.timeProgram prog ⊤ : ℚ) : WithTop ℚ) < (initState lin).bestTm :=
      WithTop.coe_lt_top _
    rw [if_pos hlt, if_pos hlt]
    have hbp : backprop (env.timeProgram prog ⊤)
        (([⟨lin, (0 : ℚ), 0, none, some []⟩] : List (MCTSNode K)).length) 0
        [⟨lin, (0 : ℚ), 0, none, some []⟩] =
        [⟨lin, 0 + -(env.timeProgram prog ⊤ * 1000000), 0 + 1, none, some []⟩] := rfl
    rw [hbp]
    simp [nodeAt]
  · intro hcomp
    have hchild : (nodeAt (initState lin).nodes 0).children = none := rfl
    have hcomp' : env.compile
        (nodeAt (expand_node env (initState lin) 0).nodes 0).kernel = none := by
      rw [expand_init env lin hacts]
      exact hcomp
    have hpar : (nodeAt (expand_node env (initState lin) 0).nodes 0).parent = none := by
      rw [expand_init env lin hacts]
      rfl
    rw [mctsIter_prune_root env (initState lin) 0 (descend_init env lin) hchild hcomp' hpar]
    rw [expand_init env lin hacts]
    rfl

theorem mctsLoop_succ_next (env : Env K O P A D S) {s s' : SearchState K}
    {ev : List (Event K)} (h : mctsIter env s = (.next s', ev)) (n : ℕ) :
    mctsLoop env (n + 1) s = ((mctsLoop env n s').1, ev ++ (mctsLoop env n s').2) := by
  simp only [mctsLoop, h]

/-- A state whose root is expanded empty is terminal: the loop returns it
unchanged for every remaining budget. -/
theorem loop_terminal_root (env : Env K O P A D S) (s : SearchState K)
    (hterm : (nodeAt s.nodes 0).children = some []) :
    ∀ n, mctsLoop env n s = (s, []) := by
  have hd : descend env s = 0 := by
    rw [descend]
    cases hf : s.nodes.length with
    | zero => rfl
    | succ f =>
      rw [descendGo, hterm]
  have hstop : mctsIter env s = (.stop s, []) := by
    apply mctsIter_stop env s []
    rw [hd]
    exact hterm
  intro n
  cases n with
  | zero => rfl
  | succ n => simp only [mctsLoop, hstop]

/-! ### C9: terminal search returns the input kernel for every budget -/

/-- C9: on a cache miss, if the root expansion yields zero actions, the search
returns the input kernel unchanged, whatever the iteration budget. -/
theorem C9_terminal_idempotent (env : Env K O P A D S) (lin : K) (amt : ℕ)
    (hmiss : (if env.ignoreBeamCache = false ∧ 1 ≤ env.cacheLevel
      then env.cacheGet (searchKey env lin amt) else none) = none)
    (hacts : env.actions lin = []) :
    mcts_search env lin amt = lin ∧ (mctsRun env lin amt).result = lin := by
  have hrun : mctsRun env lin amt =
      ⟨(mctsLoop env amt (initState lin)).1.best, some (mctsLoop env amt (initState lin)).1,
       (mctsLoop env amt (initState lin)).2⟩ := by
    simp only [mctsRun, hmiss]
  have hbest : (mctsLoop env amt (initState lin)).1.best = lin := by
    cases amt with
    | zero => rfl
    | succ n =>
      rcases hcomp : env.compile lin with _ | prog
      · have hit := (iter_empty_actions env lin hacts).2 hcomp
        simp only [mctsLoop, hit]
        rw [loop_terminal_root env _ (by rfl) n]
      · have hit := (iter_empty_actions env lin hacts).1 prog hcomp
        simp only [mctsLoop, hit]
        rw [loop_terminal_root env _ (by rfl) n]
  constructor
  · show (mctsRun env lin amt).result = lin
    rw [hrun]
    exact hbest
  · rw [hrun]
    exact hbest

/-- Witness for C9 at concrete inputs. -/
theorem C9_witness :
    mcts_search envEmptyActs 0 10 = 0 ∧ mcts_search envEmptyActs 0 1 = 0 :=
  ⟨(C9_terminal_idempotent envEmptyActs 0 10 (by decide) (by decide)).1,
   (C9_terminal_idempotent envEmptyActs 0 1 (by decide) (by decide)).1⟩

/-! ### C1: the amt = 3 empty-root scenario -/

/-- C1 (amended): with `amt = 3` (cache miss) and a root whose action
generator returns no actions, the search returns the original kernel, but —
contrary to the claim — the root IS rolled out once: the first iteration
expands the root and then compiles the root's own kernel (exactly one compile
call); if the compile succeeds the rollout completes (one timing, one
backpropagation), leaving the root with `visit_count = 1`; only if the
compile fails does the root's `visit_count` stay `0`.  The loop then stops
during the second iteration's selection. -/
theorem C1_terminal_scenario (env : Env K O P A D S) (lin : K)
    (hmiss : (if env.ignoreBeamCache = false ∧ 1 ≤ env.cacheLevel
      then env.cacheGet (searchKey env lin 3) else none) = none)
    (hacts : env.actions lin = []) :
    mcts_search env lin 3 = lin ∧
    compileCallsOf (mctsRun env lin 3).trace = [lin] ∧
    ∃ s : SearchState K, (mctsRun env lin 3).finalState = some s ∧
      (nodeAt s.nodes 0).children = some [] ∧
      (nodeAt s.nodes 0).n = (match env.compile lin with | some _ => 1 | none => 0) ∧
      (rolloutsOf (mctsRun env lin 3).trace).length =
        (match env.compile lin with | some _ => 1 | none => 0) := by
  have hrun : mctsRun env lin 3 =
      ⟨(mctsLoop env 3 (initState lin)).1.best, some (mctsLoop env 3 (initState lin)).1,
       (mctsLoop env 3 (initState lin)).2⟩ := by
    simp only [mctsRun, hmiss]
  rcases hcomp : env.compile lin with _ | prog
  · have hit := (iter_empty_actions env lin hacts).2 hcomp
    have hloop : mctsLoop env 3 (initState lin) =
        ((⟨[⟨lin, 0, 0, none, some []⟩], lin, ⊤⟩ : SearchState K), [.compileCall lin]) := by
      rw [show (3 : ℕ) = 2 + 1 from rfl, mctsLoop_succ_next env hit 2,
        loop_terminal_root env _ (by rfl) 2]
      rfl
    refine ⟨?_, ?_, ⟨[⟨lin, 0, 0, none, some []⟩], lin, ⊤⟩, ?_, rfl, rfl, ?_⟩
    · show (mctsRun env lin 3).result = lin
      rw [hrun, hloop]
    · rw [hrun, hloop]
      rfl
    · rw [hrun, hloop]
    · rw [hrun, hloop]
      rfl
  · have hit := (iter_empty_actions env lin hacts).1 prog hcomp
    have hloop : mctsLoop env 3 (initState lin) =
        ((⟨[⟨lin, -(env.timeProgram prog ⊤ * 1000000), 1, none, some []⟩], lin,
           ((env.timeProgram prog ⊤ : ℚ) : WithTop ℚ)⟩ : SearchState K),
         [.compileCall lin, .timeCall (env.timeProgram prog ⊤), .rolloutDone 0]) := by
      rw [show (3 : ℕ) = 2 + 1 from rfl, mctsLoop_succ_next env hit 2,
        loop_terminal_root env _ (by rfl) 2]
      rfl
    refine ⟨?_, ?_,
      ⟨[⟨lin, -(env.timeProgram prog ⊤ * 1000000), 1, none, some []⟩], lin,
       ((env.timeProgram prog ⊤ : ℚ) : WithTop ℚ)⟩, ?_, rfl, rfl, ?_⟩
    · show (mctsRun env lin 3).result = lin
      rw [hrun, hloop]
    · rw [hrun, hloop]
      rfl
    · rw [hrun, hloop]
    · rw [hrun, hloop]
      rfl

/-- Counterexample to C1 as stated: for the concrete environment whose action
generator is empty everywhere and whose compiler always succeeds with timing
1, the `amt = 3` search returns the input kernel `0` as claimed, but the
root's `visit_count` is `1` (not `0`) and a rollout did happen: one compile,
one timing and one backpropagation are recorded. -/
theorem C1_counterexample :
    (mctsRun envEmptyActs 0 3).result = 0 ∧
    (mctsRun envEmptyActs 0 3).finalState.map (fun s => (nodeAt s.nodes 0).n) = some 1 ∧
    (rolloutsOf (mctsRun envEmptyActs 0 3).trace).length = 1 ∧
    timeCallsOf (mctsRun envEmptyActs 0 3).trace = [1] := by decide

/-- Witness for the amended C1 at a concrete input. -/
theorem C1_witness :
    mcts_search envEmptyActs 0 3 = 0 ∧
    compileCallsOf (mctsRun envEmptyActs 0 3).trace = [0] := by
  have h := C1_terminal_scenario envEmptyActs 0 (by decide) (by decide)
  exact ⟨h.1, h.2.1⟩

/-! ### C4: visit accounting -/

/-- C4: backpropagation after a successful rollout at node `j` increments
`visit_count` by one and adds the negated timing in microseconds to
`total_reward` for exactly the nodes of `j`'s ancestor chain — which contains
`j` itself and the root — leaving every other node unchanged; consequently,
at the end of the driver loop every node's `visit_count` equals the number of
completed rollouts performed in its subtree, and the root's `visit_count`
equals the total number of completed rollouts. -/
theorem C4_visit_accounting (env : Env K O P A D S) (lin : K) (amt : ℕ)
    (nodes : List (MCTSNode K)) (tm : ℚ) (j : ℕ)
    (hwf : WF nodes) (hj : j < nodes.length) :
    ((∀ x, x ∈ chainOf nodes nodes.length j →
        (nodeAt (backprop tm nodes.length j nodes) x).n = (nodeAt nodes x).n + 1 ∧
        (nodeAt (backprop tm nodes.length j nodes) x).t =
          (nodeAt nodes x).t + -(tm * 1000000)) ∧
     (∀ x, x ∉ chainOf nodes nodes.length j →
        nodeAt (backprop tm nodes.length j nodes) x = nodeAt nodes x) ∧
     j ∈ chainOf nodes nodes.length j ∧ 0 ∈ chainOf nodes nodes.length j) ∧
    (∀ i, i < (mctsLoop env amt (initState lin)).1.nodes.length →
      (nodeAt (mctsLoop env amt (initState lin)).1.nodes i).n =
        countIn (mctsLoop env amt (initState lin)).1.nodes
          (rolloutsOf (mctsLoop env amt (initState lin)).2) i) ∧
    (nodeAt (mctsLoop env amt (initState lin)).1.nodes 0).n =
      (rolloutsOf (mctsLoop env amt (initState lin)).2).length := by
  have pd := parentsDec_of_wf hwf
  have hmain := backprop_nodeAt tm nodes.length nodes pd j hj hj
  obtain ⟨hwfF, hcntF⟩ := mctsLoop_inv env amt (initState lin) [] (WF_init lin) (CountOK_init lin)
  rw [List.nil_append] at hcntF
  refine ⟨⟨?_, ?_, ?_, ?_⟩, hcntF.2, ?_⟩
  · intro x hx
    rw [hmain x, if_pos hx]
    exact ⟨rfl, rfl⟩
  · intro x hx
    rw [hmain x, if_neg hx]
  · exact chain_self_mem nodes nodes.length j (by omega)
  · exact chain_root_mem pd (fun x hx1 hx2 => hwf.2.2.2.1 x hx2 hx1) nodes.length j hj hj
  · have h0 : 0 < (mctsLoop env amt (initState lin)).1.nodes.length := hwfF.1
    rw [hcntF.2 0 h0]
    unfold countIn
    rw [List.filter_eq_self.mpr]
    intro j' hj'
    rw [decide_eq_true_eq]
    exact chain_root_mem (parentsDec_of_wf hwfF)
      (fun x hx1 hx2 => hwfF.2.2.2.1 x hx2 hx1) _ j' (hcntF.1 j' hj') (hcntF.1 j' hj')

/-- Witness for C4 at concrete inputs: backpropagating a rollout at node 1 of
a two-node chain bumps the root's count from 1 to 2, and after a full 5-step
concrete search the root's visit count equals the number of rollouts. -/
theorem C4_witness :
    (nodeAt (backprop 2 ([⟨0, 0, 1, none, some [1]⟩,
      ⟨1, 0, 0, some 0, none⟩] : List (MCTSNode ℕ)).length 1
      [⟨0, 0, 1, none, some [1]⟩, ⟨1, 0, 0, some 0, none⟩]) 0).n = 2 ∧
    (nodeAt (mctsLoop envOneAct 5 (initState 0)).1.nodes 0).n =
      (rolloutsOf (mctsLoop envOneAct 5 (initState 0)).2).length := by
  have h := C4_visit_accounting envOneAct 0 5
    [⟨0, 0, 1, none, some [1]⟩, ⟨1, 0, 0, some 0, none⟩] 2 1 (by decide) (by decide)
  refine ⟨?_, h.2.2⟩
  exact ((h.1.1 0 (by decide)).1).trans (by decide)

/-! ### C10: UCB1 arguments are always safe -/

theorem filter_length_mono {α : Type} (l : List α) (Pb Qb : α → Bool)
    (h : ∀ x ∈ l, Pb x = true → Qb x = true) :
    (l.filter Pb).length ≤ (l.filter Qb).length := by
  induction l with
  | nil => exact le_rfl
  | cons a l ih =>
    have ih' := ih (fun x hx => h x (List.mem_cons_of_mem _ hx))
    by_cases hPa : Pb a = true
    · rw [List.filter_cons_of_pos hPa, List.filter_cons_of_pos (h a (List.mem_cons_self _ _) hPa)]
      simpa using ih'
    · rw [List.filter_cons_of_neg (by simpa using hPa)]
      by_cases hQa : Qb a = true
      · rw [List.filter_cons_of_pos hQa]
        simp only [List.length_cons]
        omega
      · rw [List.filter_cons_of_neg (by simpa using hQa)]
        exact ih'

/-- C10: the structural and counting invariants hold at the initial state and
are preserved by every iteration, and in any state satisfying them, whenever
the weighted UCB1 formula would be evaluated during selection — i.e. for a
child `c` of a node `i` with `c.visit_count > 0` — the divisor
`c.visit_count` is at least 1 and the argument of `ln`, the parent's
`visit_count`, is at least `c.visit_count ≥ 1`; the score is then exactly the
finite weighted formula (no division by zero, no log of a non-positive
value). -/
theorem C10_ucb_arguments_safe (env : Env K O P A D S) (lin : K) :
    (WF (initState lin).nodes ∧ CountOK (initState lin).nodes []) ∧
    (∀ (s s' : SearchState K) (ev : List (Event K)) (rs : List ℕ),
      WF s.nodes → CountOK s.nodes rs → mctsIter env s = (.next s', ev) →
      WF s'.nodes ∧ CountOK s'.nodes (rs ++ rolloutsOf ev)) ∧
    (∀ (s : SearchState K) (rs : List ℕ), WF s.nodes → CountOK s.nodes rs →
      ∀ i cs c, i < s.nodes.length → (nodeAt s.nodes i).children = some cs → c ∈ cs →
        (nodeAt s.nodes c).n ≠ 0 →
        1 ≤ (nodeAt s.nodes c).n ∧ (nodeAt s.nodes c).n ≤ (nodeAt s.nodes i).n ∧
        1 ≤ (nodeAt s.nodes i).n ∧
        ucbScore env (nodeAt s.nodes i).n (nodeAt s.nodes c) =
          (((nodeAt s.nodes c).t / ((nodeAt s.nodes c).n : ℚ) +
            env.sqrt 2 * env.sqrt (env.log (nodeAt s.nodes i).n /
              ((nodeAt s.nodes c).n : ℚ)) : ℚ) : WithTop ℚ)) := by
  refine ⟨⟨WF_init lin, CountOK_init lin⟩, fun s s' ev rs hwf hcnt h => inv_next env rs hwf hcnt h, ?_⟩
  intro s rs hwf hcnt i cs c hilen hcs hc hcn
  have pd := parentsDec_of_wf hwf
  have hcons := hwf.2.2.2.2 i hilen
  rw [hcs] at hcons
  obtain ⟨hclen, hcpar⟩ := hcons.2 c hc
  have hmono : (nodeAt s.nodes c).n ≤ (nodeAt s.nodes i).n := by
    rw [hcnt.2 c hclen, hcnt.2 i hilen]
    unfold countIn
    apply filter_length_mono
    intro j hj
    rw [decide_eq_true_eq, decide_eq_true_eq]
    intro hmem
    exact chain_parent_closed pd s.nodes.length j (hcnt.1 j hj) c i hmem hcpar
  refine ⟨by omega, hmono, by omega, ?_⟩
  rw [ucbScore, if_neg hcn]
  rfl

/-- Witness for C10 at a concrete invariant-satisfying state: node 1 is a
child of the root with one visit, the root has two visits. -/
theorem C10_witness :
    1 ≤ (nodeAt ([⟨0, -5, 2, none, some [1]⟩, ⟨1, -5, 1, some 0, some []⟩]
      : List (MCTSNode ℕ)) 1).n ∧
    (nodeAt ([⟨0, -5, 2, none, some [1]⟩, ⟨1, -5, 1, some 0, some []⟩]
      : List (MCTSNode ℕ)) 1).n ≤
      (nodeAt ([⟨0, -5, 2, none, some [1]⟩, ⟨1, -5, 1, some 0, some []⟩]
        : List (MCTSNode ℕ)) 0).n ∧
    1 ≤ (nodeAt ([⟨0, -5, 2, none, some [1]⟩, ⟨1, -5, 1, some 0, some []⟩]
      : List (MCTSNode ℕ)) 0).n := by
  have h := (C10_ucb_arguments_safe envEmptyActs 0).2.2
    ⟨[⟨0, -5, 2, none, some [1]⟩, ⟨1, -5, 1, some 0, some []⟩], 0, ⊤⟩ [0, 1]
    (by decide) (by decide) 0 [1] 1 (by decide) (by decide) (by decide) (by decide)
  exact ⟨h.1, h.2.1, h.2.2.1⟩
